import Mathlib

/-!
# Verification of the aethernet drain-event / ticket-reconciliation engine
and its surrounding graph utilities.

This file gives a shallow embedding of the repository's code:

* the graph model (`Graph`, `Graph.addNode`, `Graph.addEdge`, `Graph.fromJSON`,
  `Graph.shortestPath`, `Graph.getNeighbors`, `Graph.getIncomingNeighbors`)
  from `src/backend/routes/apiProxyRoutes.js` and `src/backend/map/*`;
* the courier model (`Courier.canMoveTo`, `Courier.moveTo`) from the
  repository's courier source;
* the drain-event extraction and reconciliation core, which the repository's
  specification describes but whose implementation is not present under the
  repository sources; those definitions are modelled from the specification
  text and are marked `Modelled from the spec:` in their doc comments.

JavaScript numbers are modelled as rationals (`ℚ`); `Map` objects are modelled
as association lists in insertion order; functions that `throw` are modelled
with `Option`.
-/

namespace Aethernet

/-! ## Association-list helpers (model of JS `Map` in insertion order) -/

/-- First value bound to a key in an association list (JS `Map.get`). -/
def assocFind {α : Type} (l : List (String × α)) (k : String) : Option α :=
  match l with
  | [] => none
  | (k', v) :: rest => if k' = k then some v else assocFind rest k

/-- JS `Map.set`: replace the binding if the key is present, else append. -/
def assocSet {α : Type} (l : List (String × α)) (k : String) (v : α) :
    List (String × α) :=
  match l with
  | [] => [(k, v)]
  | (k', v') :: rest =>
      if k' = k then (k, v) :: rest else (k', v') :: assocSet rest k v

/-- Ensure a key is present, binding it to a default value when absent
(JS `if (!m.has(k)) m.set(k, d)`). -/
def assocEnsure {α : Type} (l : List (String × α)) (k : String) (d : α) :
    List (String × α) :=
  match assocFind l k with
  | some _ => l
  | none => l ++ [(k, d)]

/-- Append an element to the list bound at the first occurrence of a key
(JS `m.get(k).push(x)` on a mutable array stored in a map). -/
def assocAppendAt {α : Type} (l : List (String × List α)) (k : String) (x : α) :
    List (String × List α) :=
  match l with
  | [] => []
  | (k', xs) :: rest =>
      if k' = k then (k', xs ++ [x]) :: rest else (k', xs) :: assocAppendAt rest k x

theorem assocFind_isSome_iff {α : Type} (l : List (String × α)) (k : String) :
    (assocFind l k).isSome ↔ k ∈ l.map Prod.fst := by
  induction l with
  | nil => simp [assocFind]
  | cons hd tl ih =>
      obtain ⟨k', v⟩ := hd
      by_cases h : k' = k
      · simp [assocFind, h]
      · simp only [assocFind, if_neg h, List.map_cons, List.mem_cons, ih]
        constructor
        · exact Or.inr
        · rintro (h' | h')
          · exact absurd h'.symm h
          · exact h'

theorem assocFind_mem {α : Type} {l : List (String × α)} {k : String} {v : α}
    (h : assocFind l k = some v) : (k, v) ∈ l := by
  induction l with
  | nil => simp [assocFind] at h
  | cons hd tl ih =>
      obtain ⟨k', v'⟩ := hd
      by_cases hk : k' = k
      · subst hk
        simp [assocFind] at h
        simp [h]
      · simp [assocFind, hk] at h
        simp [ih h]

/-! ## Core data model, modelled from the spec (the extraction / reconciliation
engine is not present under the repository sources; only its collaborators are). -/

/-- Modelled from the spec: `LevelSample` — one fill-level reading of a
container.  Timestamps are minutes represented as rationals (the spec's
series are minute-resolution but may contain gaps). -/
structure Sample where
  t : ℚ
  level : ℚ
  deriving DecidableEq

/-- Modelled from the spec: `DrainEvent` as described in section 3 of the
specification.  `incomplete` marks an event closed at the window boundary
(the spec leaves discard-vs-close configurable; this model closes at the
boundary, matching the spec's scenario expectations). -/
structure DrainEvent where
  containerId : String
  startTime : ℚ
  endTime : ℚ
  levelAtStart : ℚ
  levelAtEnd : ℚ
  inflowDuringEvent : ℚ
  trueDrainedVolume : ℚ
  incomplete : Bool
  deriving DecidableEq

/-- Modelled from the spec: the per-minute drained-volume contribution
`max(0, previousLevel + expectedInflow − currentLevel)` of section 4.1 step 4. -/
def minuteTerm (r : ℚ) (p c : Sample) : ℚ :=
  max 0 (p.level + r * (c.t - p.t) - c.level)

/-- Modelled from the spec: the extractor's two-state machine
(`FILLING_OR_STABLE` = `idle`, `DRAINING` = `draining`).  A draining state
carries the sample at which the drain started, the previous sample seen, and
the accumulated true drained volume. -/
inductive ExtState where
  | idle (prev : Sample)
  | draining (start : Sample) (prev : Sample) (acc : ℚ)

/-- Modelled from the spec: closing a drain event (section 4.1 step 4):
`inflowDuringEvent = fillRatePerMinute × elapsedMinutes` and
`trueDrainedVolume` is the accumulated per-minute sum. -/
def closeEvent (cid : String) (r : ℚ) (start prevS : Sample) (acc : ℚ)
    (incomplete : Bool) : DrainEvent :=
  { containerId := cid
    startTime := start.t
    endTime := prevS.t
    levelAtStart := start.level
    levelAtEnd := prevS.level
    inflowDuringEvent := r * (prevS.t - start.t)
    trueDrainedVolume := acc
    incomplete := incomplete }

/-- Modelled from the spec: the extractor scan (section 4.1).  Entry to
`DRAINING` happens when the level drops by more than the noise threshold
between consecutive samples; while draining, a sample-to-sample increase
that is at most the expected inflow for the interval does not end the event;
a rise exceeding the expected inflow closes the event at the previous sample
(the minimal confirmation window).  An event still open at the end of the
window is closed at the boundary and flagged `incomplete`. -/
def extractGo (cid : String) (r th : ℚ) : ExtState → List Sample → List DrainEvent
  | .idle _, [] => []
  | .draining start prevS acc, [] => [closeEvent cid r start prevS acc true]
  | .idle prev, cur :: rest =>
      if prev.level - cur.level > th then
        extractGo cid r th (.draining prev cur (minuteTerm r prev cur)) rest
      else
        extractGo cid r th (.idle cur) rest
  | .draining start prevS acc, cur :: rest =>
      if cur.level - prevS.level > r * (cur.t - prevS.t) then
        closeEvent cid r start prevS acc false ::
          extractGo cid r th (.idle cur) rest
      else
        extractGo cid r th (.draining start cur (acc + minuteTerm r prevS cur)) rest

/-- Modelled from the spec: `extractDrainEvents(containerId, window)` — walk
the ordered samples of one container and return its drain events. -/
def extractDrainEvents (cid : String) (r th : ℚ) (samples : List Sample) :
    List DrainEvent :=
  match samples with
  | [] => []
  | s :: rest => extractGo cid r th (.idle s) rest

/-- Modelled from the spec: canonical `Ticket` — a date-only claim.  `date` is
a day index; the day's minute window is `[date*1440, (date+1)*1440)`. -/
structure Ticket where
  ticketId : String
  date : ℕ
  containerId : String
  claimedVolume : ℚ
  deriving DecidableEq

/-- Modelled from the spec: `classification ∈ {VALID, SUSPICIOUS, UNMATCHED}`. -/
inductive Classification where
  | VALID
  | SUSPICIOUS
  | UNMATCHED
  deriving DecidableEq

/-- Modelled from the spec: `MatchResult` of one ticket against the drain
events of its container and day. -/
structure MatchResult where
  ticketId : String
  matchedEvents : List DrainEvent
  expectedVolume : ℚ
  claimedVolume : ℚ
  delta : ℚ
  classification : Classification
  deriving DecidableEq

/-- Modelled from the spec: the candidate set of a ticket — all drain events
of `ticket.containerId` whose `startTime` falls inside the ticket's day
(UTC-style day boundaries, the convention the spec asks implementers to fix). -/
def candidates (events : List DrainEvent) (t : Ticket) : List DrainEvent :=
  events.filter fun e =>
    e.containerId == t.containerId &&
      decide ((t.date * 1440 : ℚ) ≤ e.startTime) &&
      decide (e.startTime < ((t.date + 1 : ℕ) * 1440 : ℚ))

/-- Modelled from the spec: match one ticket (section 4.3).  An empty
candidate set yields `UNMATCHED`; otherwise `expectedVolume` is the sum of
`trueDrainedVolume` over the candidates, `delta = claimedVolume −
expectedVolume`, and the ticket is `VALID` when `|delta| ≤ tolerance`,
`SUSPICIOUS` otherwise. -/
def matchTicket (tol : ℚ) (events : List DrainEvent) (t : Ticket) : MatchResult :=
  let cands := candidates events t
  if cands.isEmpty then
    { ticketId := t.ticketId
      matchedEvents := []
      expectedVolume := 0
      claimedVolume := t.claimedVolume
      delta := t.claimedVolume
      classification := .UNMATCHED }
  else
    let expected := (cands.map DrainEvent.trueDrainedVolume).sum
    let delta := t.claimedVolume - expected
    { ticketId := t.ticketId
      matchedEvents := cands
      expectedVolume := expected
      claimedVolume := t.claimedVolume
      delta := delta
      classification := if |delta| ≤ tol then .VALID else .SUSPICIOUS }

/-- Modelled from the spec: `reconcile(tickets, drainEvents)` — a pure
function of the current ticket set and the current drain events. -/
def reconcile (tol : ℚ) (tickets : List Ticket) (events : List DrainEvent) :
    List MatchResult :=
  tickets.map (matchTicket tol events)

/-- Modelled from the spec: a raw ticket before normalization.  The date
field is the outcome of date parsing (`none` when the date is unparseable)
and the claimed volume is `none` when it is not a number. -/
structure RawTicket where
  ticketId : String
  date : Option ℕ
  containerId : String
  claimedVolume : Option ℚ
  deriving DecidableEq

/-- Modelled from the spec: `ParseError` for a bad ticket date or volume. -/
inductive ParseError where
  | badDate (ticketId : String)
  | badVolume (ticketId : String)
  deriving DecidableEq

/-- Modelled from the spec: `normalize(rawTicket) → Ticket | rejects with
ParseError` when the date is unparseable or the claimed volume is not a
non-negative number. -/
def normalize (r : RawTicket) : Except ParseError Ticket :=
  match r.date with
  | none => .error (.badDate r.ticketId)
  | some d =>
      match r.claimedVolume with
      | none => .error (.badVolume r.ticketId)
      | some v =>
          if v < 0 then .error (.badVolume r.ticketId)
          else .ok { ticketId := r.ticketId, date := d,
                     containerId := r.containerId, claimedVolume := v }

/-- Whether an `Except` is an error. -/
def isErr {ε α : Type} : Except ε α → Bool
  | .error _ => true
  | .ok _ => false

/-- Modelled from the spec: the whole run over raw tickets — each ticket is
normalized and matched independently; a `ParseError` is surfaced as that
ticket's per-ticket result and the remaining tickets are still processed. -/
def reconcileAll (tol : ℚ) (events : List DrainEvent) (raws : List RawTicket) :
    List (Except ParseError MatchResult) :=
  raws.map fun r => (normalize r).map (matchTicket tol events)

/-! ## Extractor invariants -/

/-- The most recently consumed sample of an extractor state. -/
def stateSample : ExtState → Sample
  | .idle p => p
  | .draining _ p _ => p

/-- Time invariant of a state: a draining interval is nonempty. -/
def stateTimeOk : ExtState → Prop
  | .idle _ => True
  | .draining s p _ => s.t < p.t

/-- Accumulator invariant: the accumulated drained volume equals the inflow
so far plus the net level drop so far. -/
def stateAccEq (r : ℚ) : ExtState → Prop
  | .idle _ => True
  | .draining s p acc => acc = r * (p.t - s.t) + (s.level - p.level)

/-- Weak accumulator invariant: the accumulated drained volume is at least
the inflow so far plus the net level drop so far. -/
def stateAccGe (r : ℚ) : ExtState → Prop
  | .idle _ => True
  | .draining s p acc => r * (p.t - s.t) + (s.level - p.level) ≤ acc

/-- Timestamps strictly increase from the state's last sample on. -/
def stateChain (st : ExtState) (samples : List Sample) : Prop :=
  List.Chain (fun a b => a.t < b.t) (stateSample st) samples

theorem extractGo_inv (cid : String) (r th : ℚ) (hr : 0 ≤ r) (hth : 0 ≤ th) :
    ∀ (samples : List Sample) (st : ExtState),
      stateChain st samples → stateTimeOk st → stateAccEq r st →
      ∀ ev ∈ extractGo cid r th st samples,
        ev.trueDrainedVolume = (ev.levelAtStart - ev.levelAtEnd) + ev.inflowDuringEvent ∧
        ev.startTime < ev.endTime := by
  intro samples
  induction samples with
  | nil =>
      intro st hchain htime hacc ev hev
      cases st with
      | idle p => simp [extractGo] at hev
      | draining s p acc =>
          simp [extractGo] at hev
          subst hev
          refine ⟨?_, htime⟩
          simp only [closeEvent]
          simp only [stateAccEq] at hacc
          linarith
  | cons cur rest ih =>
      intro st hchain htime hacc ev hev
      cases st with
      | idle prev =>
          simp only [stateChain, stateSample, List.chain_cons] at hchain
          obtain ⟨hlt, hchain'⟩ := hchain
          simp only [extractGo] at hev
          by_cases henter : prev.level - cur.level > th
          · rw [if_pos henter] at hev
            refine ih (.draining prev cur (minuteTerm r prev cur)) hchain' hlt ?_ ev hev
            simp only [stateAccEq, minuteTerm]
            rw [max_eq_right]
            · ring
            · nlinarith
          · rw [if_neg henter] at hev
            exact ih (.idle cur) hchain' trivial trivial ev hev
      | draining s p acc =>
          simp only [stateChain, stateSample, List.chain_cons] at hchain
          obtain ⟨hlt, hchain'⟩ := hchain
          simp only [stateTimeOk] at htime
          simp only [stateAccEq] at hacc
          simp only [extractGo] at hev
          by_cases hexit : cur.level - p.level > r * (cur.t - p.t)
          · rw [if_pos hexit] at hev
            rcases List.mem_cons.mp hev with hev | hev
            · subst hev
              refine ⟨?_, htime⟩
              simp only [closeEvent]
              linarith
            · exact ih (.idle cur) hchain' trivial trivial ev hev
          · rw [if_neg hexit] at hev
            refine ih (.draining s cur (acc + minuteTerm r p cur)) hchain'
              (lt_trans htime hlt) ?_ ev hev
            simp only [stateAccEq, minuteTerm]
            rw [max_eq_right]
            · rw [hacc]; ring
            · linarith

/-- C1: For every DrainEvent created by the Drain Event Extractor,
trueDrainedVolume = (levelAtStart − levelAtEnd) + inflowDuringEvent, and
startTime < endTime.  (Hypotheses: the container's fill rate and the noise
threshold are non-negative and the sample timestamps strictly increase, as
the spec requires of the telemetry input.) -/
theorem drainEvent_volume_invariant (cid : String) (r th : ℚ)
    (samples : List Sample) (hr : 0 ≤ r) (hth : 0 ≤ th)
    (hsorted : samples.Chain' (fun a b => a.t < b.t)) :
    ∀ ev ∈ extractDrainEvents cid r th samples,
      ev.trueDrainedVolume = (ev.levelAtStart - ev.levelAtEnd) + ev.inflowDuringEvent ∧
      ev.startTime < ev.endTime := by
  cases samples with
  | nil => intro ev hev; simp [extractDrainEvents] at hev
  | cons s rest =>
      exact extractGo_inv cid r th hr hth rest (.idle s) hsorted trivial trivial

theorem extractGo_ge (cid : String) (r th : ℚ) (hr : 0 ≤ r) :
    ∀ (samples : List Sample) (st : ExtState),
      stateChain st samples → stateTimeOk st → stateAccGe r st →
      ∀ ev ∈ extractGo cid r th st samples,
        ev.levelAtStart - ev.levelAtEnd ≤ ev.trueDrainedVolume := by
  intro samples
  induction samples with
  | nil =>
      intro st hchain htime hacc ev hev
      cases st with
      | idle p => simp [extractGo] at hev
      | draining s p acc =>
          simp [extractGo] at hev
          subst hev
          simp only [closeEvent]
          simp only [stateAccGe] at hacc
          simp only [stateTimeOk] at htime
          nlinarith
  | cons cur rest ih =>
      intro st hchain htime hacc ev hev
      cases st with
      | idle prev =>
          simp only [stateChain, stateSample, List.chain_cons] at hchain
          obtain ⟨hlt, hchain'⟩ := hchain
          simp only [extractGo] at hev
          by_cases henter : prev.level - cur.level > th
          · rw [if_pos henter] at hev
            refine ih (.draining prev cur (minuteTerm r prev cur)) hchain' hlt ?_ ev hev
            simp only [stateAccGe, minuteTerm]
            have := le_max_right (0 : ℚ) (prev.level + r * (cur.t - prev.t) - cur.level)
            linarith
          · rw [if_neg henter] at hev
            exact ih (.idle cur) hchain' trivial trivial ev hev
      | draining s p acc =>
          simp only [stateChain, stateSample, List.chain_cons] at hchain
          obtain ⟨hlt, hchain'⟩ := hchain
          simp only [stateTimeOk] at htime
          simp only [stateAccGe] at hacc
          simp only [extractGo] at hev
          by_cases hexit : cur.level - p.level > r * (cur.t - p.t)
          · rw [if_pos hexit] at hev
            rcases List.mem_cons.mp hev with hev | hev
            · subst hev
              simp only [closeEvent]
              nlinarith
            · exact ih (.idle cur) hchain' trivial trivial ev hev
          · rw [if_neg hexit] at hev
            refine ih (.draining s cur (acc + minuteTerm r p cur)) hchain'
              (lt_trans htime hlt) ?_ ev hev
            simp only [stateAccGe, minuteTerm]
            have hterm : r * (cur.t - p.t) + (p.level - cur.level) ≤
                max 0 (p.level + r * (cur.t - p.t) - cur.level) := by
              have := le_max_right (0 : ℚ) (p.level + r * (cur.t - p.t) - cur.level)
              linarith
            linarith

/-- C4: For every DrainEvent produced by the Extractor, trueDrainedVolume ≥
levelAtStart − levelAtEnd: the inflow correction never makes the inferred
drained volume smaller than the naive net level drop.  (Hypotheses: the fill
rate is non-negative and the sample timestamps strictly increase.) -/
theorem drainEvent_monotonic_correction (cid : String) (r th : ℚ)
    (samples : List Sample) (hr : 0 ≤ r)
    (hsorted : samples.Chain' (fun a b => a.t < b.t)) :
    ∀ ev ∈ extractDrainEvents cid r th samples,
      ev.levelAtStart - ev.levelAtEnd ≤ ev.trueDrainedVolume := by
  cases samples with
  | nil => intro ev hev; simp [extractDrainEvents] at hev
  | cons s rest =>
      exact extractGo_ge cid r th hr rest (.idle s) hsorted trivial trivial

/-- Lower bound of any extracted event's start time given the state. -/
def stateStartLB : ExtState → ℚ
  | .idle p => p.t
  | .draining s _ _ => s.t

theorem extractGo_startLB (cid : String) (r th : ℚ) :
    ∀ (samples : List Sample) (st : ExtState),
      stateChain st samples → stateTimeOk st →
      ∀ ev ∈ extractGo cid r th st samples, stateStartLB st ≤ ev.startTime := by
  intro samples
  induction samples with
  | nil =>
      intro st hchain htime ev hev
      cases st with
      | idle p => simp [extractGo] at hev
      | draining s p acc =>
          simp [extractGo] at hev
          subst hev
          simp [closeEvent, stateStartLB]
  | cons cur rest ih =>
      intro st hchain htime ev hev
      cases st with
      | idle prev =>
          simp only [stateChain, stateSample, List.chain_cons] at hchain
          obtain ⟨hlt, hchain'⟩ := hchain
          simp only [extractGo] at hev
          by_cases henter : prev.level - cur.level > th
          · rw [if_pos henter] at hev
            exact ih (.draining prev cur (minuteTerm r prev cur)) hchain' hlt ev hev
          · rw [if_neg henter] at hev
            have := ih (.idle cur) hchain' trivial ev hev
            simp only [stateStartLB] at this ⊢
            linarith
      | draining s p acc =>
          simp only [stateChain, stateSample, List.chain_cons] at hchain
          obtain ⟨hlt, hchain'⟩ := hchain
          simp only [stateTimeOk] at htime
          simp only [extractGo] at hev
          by_cases hexit : cur.level - p.level > r * (cur.t - p.t)
          · rw [if_pos hexit] at hev
            rcases List.mem_cons.mp hev with hev | hev
            · subst hev
              simp [closeEvent, stateStartLB]
            · have := ih (.idle cur) hchain' trivial ev hev
              simp only [stateStartLB] at this ⊢
              linarith
          · rw [if_neg hexit] at hev
            exact ih (.draining s cur (acc + minuteTerm r p cur)) hchain'
              (lt_trans htime hlt) ev hev

theorem extractGo_pairwise (cid : String) (r th : ℚ) :
    ∀ (samples : List Sample) (st : ExtState),
      stateChain st samples → stateTimeOk st →
      (extractGo cid r th st samples).Pairwise
        (fun a b => a.endTime ≤ b.startTime ∧ a.startTime ≤ b.startTime) := by
  intro samples
  induction samples with
  | nil =>
      intro st hchain htime
      cases st with
      | idle p => simp [extractGo]
      | draining s p acc => simp [extractGo]
  | cons cur rest ih =>
      intro st hchain htime
      cases st with
      | idle prev =>
          simp only [stateChain, stateSample, List.chain_cons] at hchain
          obtain ⟨hlt, hchain'⟩ := hchain
          simp only [extractGo]
          by_cases henter : prev.level - cur.level > th
          · rw [if_pos henter]
            exact ih (.draining prev cur (minuteTerm r prev cur)) hchain' hlt
          · rw [if_neg henter]
            exact ih (.idle cur) hchain' trivial
      | draining s p acc =>
          simp only [stateChain, stateSample, List.chain_cons] at hchain
          obtain ⟨hlt, hchain'⟩ := hchain
          simp only [stateTimeOk] at htime
          simp only [extractGo]
          by_cases hexit : cur.level - p.level > r * (cur.t - p.t)
          · rw [if_pos hexit]
            refine List.Pairwise.cons ?_ (ih (.idle cur) hchain' trivial)
            intro ev hev
            have hstart := extractGo_startLB cid r th rest (.idle cur) hchain' trivial ev hev
            simp only [stateStartLB] at hstart
            simp only [closeEvent]
            constructor
            · linarith
            · linarith
          · rw [if_neg hexit]
            exact ih (.draining s cur (acc + minuteTerm r p cur)) hchain'
              (lt_trans htime hlt)

/-- C5: For every container and extraction run, the list of DrainEvents
returned by the Extractor is pairwise non-overlapping in time (an earlier
event ends no later than a later one starts) and ordered by non-decreasing
startTime.  (Hypothesis: the sample timestamps strictly increase.) -/
theorem drainEvents_nonoverlapping_ordered (cid : String) (r th : ℚ)
    (samples : List Sample)
    (hsorted : samples.Chain' (fun a b => a.t < b.t)) :
    (extractDrainEvents cid r th samples).Pairwise
      (fun a b => a.endTime ≤ b.startTime ∧ a.startTime ≤ b.startTime) := by
  cases samples with
  | nil => simp [extractDrainEvents]
  | cons s rest =>
      exact extractGo_pairwise cid r th rest (.idle s) hsorted trivial

/-! ## Reconciliation claims -/

/-- C2: For every ticket with a non-empty candidate set, reconcile computes
expectedVolume as the sum of trueDrainedVolume over all candidates and
delta = claimedVolume − expectedVolume, classifying the ticket VALID exactly
when |delta| ≤ tolerance and SUSPICIOUS exactly when |delta| > tolerance. -/
theorem reconcile_classification (tol : ℚ) (tickets : List Ticket)
    (events : List DrainEvent) :
    reconcile tol tickets events = tickets.map (matchTicket tol events) ∧
    ∀ t : Ticket, candidates events t ≠ [] →
      (matchTicket tol events t).expectedVolume =
        ((candidates events t).map DrainEvent.trueDrainedVolume).sum ∧
      (matchTicket tol events t).delta =
        t.claimedVolume - ((candidates events t).map DrainEvent.trueDrainedVolume).sum ∧
      ((matchTicket tol events t).classification = .VALID ↔
        |(matchTicket tol events t).delta| ≤ tol) ∧
      ((matchTicket tol events t).classification = .SUSPICIOUS ↔
        tol < |(matchTicket tol events t).delta|) := by
  refine ⟨rfl, ?_⟩
  intro t hne
  have hempty : (candidates events t).isEmpty = false := by
    cases h : candidates events t with
    | nil => exact absurd h hne
    | cons a l => simp [h]
  refine ⟨by simp [matchTicket, hempty], by simp [matchTicket, hempty], ?_, ?_⟩
  · by_cases h : |t.claimedVolume - ((candidates events t).map DrainEvent.trueDrainedVolume).sum| ≤ tol
    · simp [matchTicket, hempty, h]
    · simp [matchTicket, hempty, h]
  · by_cases h : |t.claimedVolume - ((candidates events t).map DrainEvent.trueDrainedVolume).sum| ≤ tol
    · simp [matchTicket, hempty, h, not_lt.mpr h]
    · simp [matchTicket, hempty, h, not_le.mp h]

/-- C3: For every ticket whose candidate set is empty — no DrainEvent for
ticket.containerId with startTime inside the day of ticket.date — reconcile
classifies that ticket UNMATCHED, regardless of its claimedVolume. -/
theorem reconcile_unmatched (tol : ℚ) (tickets : List Ticket)
    (events : List DrainEvent) :
    reconcile tol tickets events = tickets.map (matchTicket tol events) ∧
    ∀ t : Ticket, candidates events t = [] →
      (matchTicket tol events t).classification = .UNMATCHED := by
  refine ⟨rfl, ?_⟩
  intro t hempty
  simp [matchTicket, hempty]

/-- C6: reconcile is a pure function of its inputs: calling it twice with
identical ticket and drain-event inputs yields identical MatchResults (the
embedding has no mutable state a run could leave behind). -/
theorem reconcile_idempotent (tol : ℚ) (t1 t2 : List Ticket)
    (d1 d2 : List DrainEvent) (ht : t1 = t2) (hd : d1 = d2) :
    reconcile tol t1 d1 = reconcile tol t2 d2 := by
  rw [ht, hd]

/-- C7: normalize rejects with ParseError exactly when the raw ticket's date
is unparseable or its claimedVolume is not a non-negative number; and a
ParseError on one ticket never aborts the run — the run maps every raw
ticket to its own per-ticket result (error or match), preserving count and
position. -/
theorem normalize_parse_errors (tol : ℚ) (events : List DrainEvent)
    (raws : List RawTicket) :
    (∀ r : RawTicket, isErr (normalize r) = true ↔
      (r.date = none ∨ r.claimedVolume = none ∨
        ∃ v, r.claimedVolume = some v ∧ v < 0)) ∧
    (reconcileAll tol events raws).length = raws.length ∧
    ∀ i : ℕ, (reconcileAll tol events raws)[i]? =
      (raws[i]?).map fun r => (normalize r).map (matchTicket tol events) := by
  refine ⟨?_, by simp [reconcileAll], ?_⟩
  · intro r
    cases hd : r.date with
    | none => simp [normalize, hd, isErr]
    | some d =>
        cases hv : r.claimedVolume with
        | none => simp [normalize, hd, hv, isErr]
        | some v =>
            by_cases hneg : v < 0
            · simp [normalize, hd, hv, hneg, isErr]
            · simp [normalize, hd, hv, hneg, isErr]
  · intro i
    simp [reconcileAll, List.getElem?_map]

/-! ## Concrete runs used by the witnesses (the spec's own test scenarios) -/

/-- The spec's pure-drain scenario: levels 500, 480, 460, 440 at one-minute
steps with zero fill rate. -/
def demoSamples : List Sample := [⟨0, 500⟩, ⟨1, 480⟩, ⟨2, 460⟩, ⟨3, 440⟩]

/-- The single event the extractor produces from `demoSamples`. -/
def demoEvent : DrainEvent :=
  { containerId := "c1", startTime := 0, endTime := 3, levelAtStart := 500,
    levelAtEnd := 440, inflowDuringEvent := 0, trueDrainedVolume := 60,
    incomplete := true }

/-- Sanity: the spec's pure-drain scenario yields one event of volume 60. -/
theorem demo_pure_drain :
    extractDrainEvents "c1" 0 10 demoSamples = [demoEvent] := by
  norm_num [extractDrainEvents, extractGo, minuteTerm, closeEvent, demoSamples,
    demoEvent]

/-- The spec's drain-with-inflow scenario: levels 500, 490, 485, 487 with
fill rate 5 per minute; the true drained volume is 28. -/
theorem demo_drain_with_inflow :
    (extractDrainEvents "c1" 5 6 [⟨0, 500⟩, ⟨1, 490⟩, ⟨2, 485⟩, ⟨3, 487⟩]).map
      DrainEvent.trueDrainedVolume = [28] := by
  norm_num [extractDrainEvents, extractGo, minuteTerm, closeEvent]

theorem demoSamples_sorted : demoSamples.Chain' (fun a b => a.t < b.t) := by
  norm_num [demoSamples]

theorem demoEvent_mem : demoEvent ∈ extractDrainEvents "c1" 0 10 demoSamples := by
  rw [demo_pure_drain]
  exact List.mem_singleton.mpr rfl

theorem drainEvent_volume_invariant_witness :
    (0 : ℚ) ≤ 0 ∧ (0 : ℚ) ≤ 10 ∧
      demoSamples.Chain' (fun a b => a.t < b.t) ∧
      demoEvent ∈ extractDrainEvents "c1" 0 10 demoSamples ∧
      (demoEvent.trueDrainedVolume =
        (demoEvent.levelAtStart - demoEvent.levelAtEnd) + demoEvent.inflowDuringEvent ∧
       demoEvent.startTime < demoEvent.endTime) :=
  ⟨le_refl 0, by norm_num, demoSamples_sorted, demoEvent_mem,
    drainEvent_volume_invariant "c1" 0 10 demoSamples (le_refl 0) (by norm_num)
      demoSamples_sorted demoEvent demoEvent_mem⟩

theorem drainEvent_monotonic_correction_witness :
    (0 : ℚ) ≤ 0 ∧ demoSamples.Chain' (fun a b => a.t < b.t) ∧
      demoEvent ∈ extractDrainEvents "c1" 0 10 demoSamples ∧
      demoEvent.levelAtStart - demoEvent.levelAtEnd ≤ demoEvent.trueDrainedVolume :=
  ⟨le_refl 0, demoSamples_sorted, demoEvent_mem,
    drainEvent_monotonic_correction "c1" 0 10 demoSamples (le_refl 0)
      demoSamples_sorted demoEvent demoEvent_mem⟩

theorem drainEvents_nonoverlapping_ordered_witness :
    demoSamples.Chain' (fun a b => a.t < b.t) ∧
      (extractDrainEvents "c1" 0 10 demoSamples).Pairwise
        (fun a b => a.endTime ≤ b.startTime ∧ a.startTime ≤ b.startTime) :=
  ⟨demoSamples_sorted,
    drainEvents_nonoverlapping_ordered "c1" 0 10 demoSamples demoSamples_sorted⟩

/-- One matched drain of 60 units on day 0 of container c1. -/
def demoEvents : List DrainEvent :=
  [{ containerId := "c1", startTime := 600, endTime := 660, levelAtStart := 500,
     levelAtEnd := 440, inflowDuringEvent := 0, trueDrainedVolume := 60,
     incomplete := false }]

/-- A ticket claiming 62 units from container c1 on day 0. -/
def demoTicket : Ticket :=
  { ticketId := "t1", date := 0, containerId := "c1", claimedVolume := 62 }

/-- A ticket for a container with no drain events. -/
def demoTicketUnmatched : Ticket :=
  { ticketId := "t2", date := 0, containerId := "c2", claimedVolume := 10 }

theorem demoTicket_candidates_ne :
    candidates demoEvents demoTicket ≠ [] := by
  norm_num [candidates, demoEvents, demoTicket]

theorem demoTicketUnmatched_candidates :
    candidates demoEvents demoTicketUnmatched = [] := by
  have h : ¬ "c1" = "c2" := by simp
  norm_num [candidates, demoEvents, demoTicketUnmatched, h]

theorem reconcile_classification_witness :
    candidates demoEvents demoTicket ≠ [] ∧
      (matchTicket 5 demoEvents demoTicket).expectedVolume =
        ((candidates demoEvents demoTicket).map DrainEvent.trueDrainedVolume).sum ∧
      ((matchTicket 5 demoEvents demoTicket).classification = .VALID ↔
        |(matchTicket 5 demoEvents demoTicket).delta| ≤ 5) :=
  ⟨demoTicket_candidates_ne, ((reconcile_classification 5 [demoTicket] demoEvents).2
      demoTicket demoTicket_candidates_ne).1,
    ((reconcile_classification 5 [demoTicket] demoEvents).2
      demoTicket demoTicket_candidates_ne).2.2.1⟩

theorem reconcile_unmatched_witness :
    candidates demoEvents demoTicketUnmatched = [] ∧
      (matchTicket 5 demoEvents demoTicketUnmatched).classification = .UNMATCHED :=
  ⟨demoTicketUnmatched_candidates, (reconcile_unmatched 5 [demoTicketUnmatched] demoEvents).2
      demoTicketUnmatched demoTicketUnmatched_candidates⟩

theorem reconcile_idempotent_witness :
    reconcile 5 [demoTicket] demoEvents = reconcile 5 [demoTicket] demoEvents :=
  reconcile_idempotent 5 [demoTicket] [demoTicket] demoEvents demoEvents rfl rfl

/-! ## Graph model (apiProxyRoutes.js, market.js, cauldron.js)

Nodes are modelled by their id and their constructor kind (`Market`,
`Cauldron`, or a plain object kept as-is); the node fields that no claim
touches (name, coordinates, per-node adjacency id lists) are omitted.
A node with a falsy id makes `addNode` throw in the source, modelled by
`Option`. -/

/-- Which constructor produced a node. -/
inductive NodeKind where
  | market
  | cauldron
  | plain
  deriving DecidableEq

/-- A graph node: a Market or Cauldron instance, or a plain object. -/
structure Node where
  id : String
  kind : NodeKind
  deriving DecidableEq

/-- The directed graph of apiProxyRoutes.js: `nodes` and `adjacency` are JS
`Map`s in insertion order; adjacency values are edge arrays
`{to, travel_time_minutes}`. -/
structure Graph where
  nodes : List (String × Node)
  adjacency : List (String × List (String × ℚ))

/-- The `new Graph()` constructor. -/
def Graph.empty : Graph := ⟨[], []⟩

/-- `getNode(id)`: `this.nodes.get(id) || null`. -/
def Graph.getNode (g : Graph) (id : String) : Option Node :=
  assocFind g.nodes id

/-- `addNode(node)`: throws when the id is falsy, else stores the node and
ensures an adjacency entry. -/
def Graph.addNode (g : Graph) (n : Node) : Option Graph :=
  if n.id = "" then none
  else some { nodes := assocSet g.nodes n.id n
              adjacency := assocEnsure g.adjacency n.id [] }

/-- `addEdge(fromId, toId, travel_time_minutes)`: ensure the from entry,
push the edge onto it, ensure the to entry.  (The source also appends to the
nodes' own from/to id lists, which this model omits — no claim reads them.) -/
def Graph.addEdge (g : Graph) (fromId toId : String) (t : ℚ) : Graph :=
  { nodes := g.nodes
    adjacency :=
      assocEnsure (assocAppendAt (assocEnsure g.adjacency fromId []) fromId (toId, t))
        toId [] }

/-- `getNeighbors(id)`: outgoing neighbors as resolved nodes (or null) with
their edge weight. -/
def Graph.getNeighbors (g : Graph) (id : String) : List (Option Node × ℚ) :=
  ((assocFind g.adjacency id).getD []).map fun e => (g.getNode e.1, e.2)

/-- `getIncomingNeighbors(id)`: scan every adjacency entry for edges into
`id`. -/
def Graph.getIncomingNeighbors (g : Graph) (id : String) : List (Option Node × ℚ) :=
  (g.adjacency.map fun kl =>
    (kl.2.filter fun e => e.1 == id).map fun e => (g.getNode kl.1, e.2)).flatten

/-- JS `String.prototype.startsWith`, computed on the character lists. -/
def strStartsWith (s p : String) : Bool :=
  p.toList.isPrefixOf s.toList

/-- The id-prefix heuristic of `Graph.fromJSON`: `market_` ids become Market
instances, `cauldron_` ids become Cauldron instances, anything else is kept
as a plain object. -/
def kindOfId (id : String) : NodeKind :=
  if strStartsWith id "market_" then .market
  else if strStartsWith id "cauldron_" then .cauldron
  else .plain

/-- An edge record of the `jsonEdges.edges` array. -/
structure JEdge where
  fromId : String
  toId : String
  travel_time_minutes : ℚ
  deriving DecidableEq

/-- An element of the `nodesArray` argument of `Graph.fromJSON`: either an
existing Market/Cauldron instance (`inst = some kind`) or a plain object
converted by the id-prefix heuristic. -/
structure RawNode where
  id : String
  inst : Option NodeKind
  deriving DecidableEq

/-- Convert a nodesArray element the way `Graph.fromJSON` does. -/
def instantiate (n : RawNode) : Node :=
  match n.inst with
  | some k => ⟨n.id, k⟩
  | none => ⟨n.id, kindOfId n.id⟩

/-- The nodesArray loop of `Graph.fromJSON`: skip entries with falsy ids,
convert and add the rest. -/
def addNodesFromArray (g : Graph) : List RawNode → Option Graph
  | [] => some g
  | n :: rest =>
      if n.id = "" then addNodesFromArray g rest
      else (g.addNode (instantiate n)).bind fun g1 => addNodesFromArray g1 rest

/-- The placeholder step of the edges loop: if an edge endpoint has no node
yet, add a placeholder chosen by the id-prefix heuristic. -/
def Graph.ensurePlaceholder (g : Graph) (id : String) : Option Graph :=
  match g.getNode id with
  | some _ => some g
  | none => g.addNode ⟨id, kindOfId id⟩

/-- The edges loop of `Graph.fromJSON`: ensure both endpoints exist, then
add the edge. -/
def addEdgesFromJSON (g : Graph) : List JEdge → Option Graph
  | [] => some g
  | e :: rest =>
      (g.ensurePlaceholder e.fromId).bind fun g1 =>
        (g1.ensurePlaceholder e.toId).bind fun g2 =>
          addEdgesFromJSON (g2.addEdge e.fromId e.toId e.travel_time_minutes) rest

/-- `Graph.fromJSON(jsonEdges, nodesArray)`. -/
def Graph.fromJSON (jsonEdges : List JEdge) (nodesArray : List RawNode) :
    Option Graph :=
  (addNodesFromArray Graph.empty nodesArray).bind fun g =>
    addEdgesFromJSON g jsonEdges

/-- A node with this id is stored in the graph. -/
def Graph.nodesHas (g : Graph) (id : String) : Prop :=
  (g.getNode id).isSome

/-- The adjacency map has an entry for this id. -/
def Graph.adjHas (g : Graph) (id : String) : Prop :=
  (assocFind g.adjacency id).isSome

instance (g : Graph) (id : String) : Decidable (g.nodesHas id) := by
  unfold Graph.nodesHas
  infer_instance

instance (g : Graph) (id : String) : Decidable (g.adjHas id) := by
  unfold Graph.adjHas
  infer_instance

/-! ## Association-list key lemmas -/

theorem assocSet_keys {α : Type} (l : List (String × α)) (k : String) (v : α) :
    (assocSet l k v).map Prod.fst =
      if k ∈ l.map Prod.fst then l.map Prod.fst else l.map Prod.fst ++ [k] := by
  induction l with
  | nil => simp [assocSet]
  | cons hd tl ih =>
      obtain ⟨k', v'⟩ := hd
      by_cases h : k' = k
      · subst h
        simp [assocSet]
      · simp only [assocSet, if_neg h, List.map_cons, ih]
        by_cases hmem : k ∈ tl.map Prod.fst
        · simp [hmem, Ne.symm h]
        · simp [hmem, Ne.symm h]

theorem assocEnsure_keys {α : Type} (l : List (String × α)) (k : String) (d : α) :
    (assocEnsure l k d).map Prod.fst =
      if (assocFind l k).isSome then l.map Prod.fst else l.map Prod.fst ++ [k] := by
  unfold assocEnsure
  cases h : assocFind l k <;> simp [h]

theorem assocAppendAt_keys {α : Type} (l : List (String × List α)) (k : String)
    (x : α) : (assocAppendAt l k x).map Prod.fst = l.map Prod.fst := by
  induction l with
  | nil => simp [assocAppendAt]
  | cons hd tl ih =>
      obtain ⟨k', xs⟩ := hd
      by_cases h : k' = k <;> simp [assocAppendAt, h, ih]

theorem mem_assocSet_keys {α : Type} {l : List (String × α)} {k' : String}
    (k : String) (v : α) (h : k' ∈ l.map Prod.fst) :
    k' ∈ (assocSet l k v).map Prod.fst := by
  rw [assocSet_keys]
  split
  · exact h
  · exact List.mem_append_left _ h

theorem self_mem_assocSet_keys {α : Type} (l : List (String × α)) (k : String)
    (v : α) : k ∈ (assocSet l k v).map Prod.fst := by
  rw [assocSet_keys]
  split
  · assumption
  · exact List.mem_append_right _ (List.mem_singleton.mpr rfl)

theorem mem_assocEnsure_keys {α : Type} {l : List (String × α)} {k' : String}
    (k : String) (d : α) (h : k' ∈ l.map Prod.fst) :
    k' ∈ (assocEnsure l k d).map Prod.fst := by
  rw [assocEnsure_keys]
  split
  · exact h
  · exact List.mem_append_left _ h

theorem self_mem_assocEnsure_keys {α : Type} (l : List (String × α)) (k : String)
    (d : α) : k ∈ (assocEnsure l k d).map Prod.fst := by
  rw [assocEnsure_keys]
  split
  · next h => exact (assocFind_isSome_iff l k).mp h
  · exact List.mem_append_right _ (List.mem_singleton.mpr rfl)

theorem mem_assocSet_keys_elim {α : Type} {l : List (String × α)} {k k' : String}
    {v : α} (h : k' ∈ (assocSet l k v).map Prod.fst) :
    k' = k ∨ k' ∈ l.map Prod.fst := by
  rw [assocSet_keys] at h
  by_cases hmem : k ∈ l.map Prod.fst
  · rw [if_pos hmem] at h
    exact Or.inr h
  · rw [if_neg hmem] at h
    rcases List.mem_append.mp h with h | h
    · exact Or.inr h
    · exact Or.inl (List.mem_singleton.mp h)

/-! ## Graph construction invariants (for `fromJSON`) -/

/-- The node-map keys of a graph. -/
def Graph.nodeKeys (g : Graph) : List String := g.nodes.map Prod.fst

/-- The adjacency-map keys of a graph. -/
def Graph.adjKeys (g : Graph) : List String := g.adjacency.map Prod.fst

/-- Every stored node id has an adjacency entry. -/
def Graph.covered (g : Graph) : Prop :=
  ∀ id ∈ g.nodeKeys, id ∈ g.adjKeys

theorem Graph.addNode_nodeKeys {g g' : Graph} {n : Node}
    (h : g.addNode n = some g') :
    g'.nodeKeys = (assocSet g.nodes n.id n).map Prod.fst ∧
      g'.adjKeys = (assocEnsure g.adjacency n.id []).map Prod.fst := by
  unfold Graph.addNode at h
  by_cases hid : n.id = ""
  · simp [hid] at h
  · simp only [hid, if_false, Option.some.injEq] at h
    subst h
    exact ⟨rfl, rfl⟩

theorem Graph.addNode_mem_nodeKeys {g g' : Graph} {n : Node}
    (h : g.addNode n = some g') : n.id ∈ g'.nodeKeys := by
  rw [(Graph.addNode_nodeKeys h).1]
  exact self_mem_assocSet_keys _ _ _

theorem Graph.addNode_mono_nodeKeys {g g' : Graph} {n : Node}
    (h : g.addNode n = some g') {id : String} (hid : id ∈ g.nodeKeys) :
    id ∈ g'.nodeKeys := by
  rw [(Graph.addNode_nodeKeys h).1]
  exact mem_assocSet_keys _ _ hid

theorem Graph.addNode_mono_adjKeys {g g' : Graph} {n : Node}
    (h : g.addNode n = some g') {id : String} (hid : id ∈ g.adjKeys) :
    id ∈ g'.adjKeys := by
  rw [(Graph.addNode_nodeKeys h).2]
  exact mem_assocEnsure_keys _ _ hid

theorem Graph.addNode_mem_adjKeys {g g' : Graph} {n : Node}
    (h : g.addNode n = some g') : n.id ∈ g'.adjKeys := by
  rw [(Graph.addNode_nodeKeys h).2]
  exact self_mem_assocEnsure_keys _ _ _

theorem Graph.addNode_covered {g g' : Graph} {n : Node} (h : g.addNode n = some g')
    (hc : g.covered) : g'.covered := by
  intro id hid
  rw [(Graph.addNode_nodeKeys h).1] at hid
  rcases mem_assocSet_keys_elim hid with hid | hid
  · subst hid
    exact Graph.addNode_mem_adjKeys h
  · exact Graph.addNode_mono_adjKeys h (hc id hid)

theorem Graph.addEdge_nodeKeys (g : Graph) (a b : String) (t : ℚ) :
    (g.addEdge a b t).nodeKeys = g.nodeKeys := rfl

theorem Graph.addEdge_mono_adjKeys (g : Graph) (a b : String) (t : ℚ)
    {id : String} (hid : id ∈ g.adjKeys) : id ∈ (g.addEdge a b t).adjKeys := by
  unfold Graph.addEdge Graph.adjKeys
  simp only
  apply mem_assocEnsure_keys
  rw [assocAppendAt_keys]
  exact mem_assocEnsure_keys _ _ hid

theorem Graph.addEdge_covered (g : Graph) (a b : String) (t : ℚ)
    (hc : g.covered) : (g.addEdge a b t).covered := by
  intro id hid
  rw [Graph.addEdge_nodeKeys] at hid
  exact Graph.addEdge_mono_adjKeys g a b t (hc id hid)

theorem Graph.ensurePlaceholder_mem {g g' : Graph} {id : String}
    (h : g.ensurePlaceholder id = some g') : id ∈ g'.nodeKeys := by
  unfold Graph.ensurePlaceholder at h
  cases hfind : g.getNode id with
  | some n =>
      rw [hfind] at h
      cases h
      have hsome : (assocFind g.nodes id).isSome := by
        unfold Graph.getNode at hfind
        rw [hfind]
        rfl
      exact (assocFind_isSome_iff g.nodes id).mp hsome
  | none =>
      rw [hfind] at h
      exact Graph.addNode_mem_nodeKeys h

theorem Graph.ensurePlaceholder_mono_nodeKeys {g g' : Graph} {id : String}
    (h : g.ensurePlaceholder id = some g') {id' : String}
    (hid : id' ∈ g.nodeKeys) : id' ∈ g'.nodeKeys := by
  unfold Graph.ensurePlaceholder at h
  cases hfind : g.getNode id with
  | some n =>
      rw [hfind] at h
      cases h
      exact hid
  | none =>
      rw [hfind] at h
      exact Graph.addNode_mono_nodeKeys h hid

theorem Graph.ensurePlaceholder_covered {g g' : Graph} {id : String}
    (h : g.ensurePlaceholder id = some g') (hc : g.covered) : g'.covered := by
  unfold Graph.ensurePlaceholder at h
  cases hfind : g.getNode id with
  | some n =>
      rw [hfind] at h
      cases h
      exact hc
  | none =>
      rw [hfind] at h
      exact Graph.addNode_covered h hc

theorem addEdgesFromJSON_mono_nodeKeys :
    ∀ (edges : List JEdge) (g g' : Graph), addEdgesFromJSON g edges = some g' →
      ∀ id ∈ g.nodeKeys, id ∈ g'.nodeKeys := by
  intro edges
  induction edges with
  | nil =>
      intro g g' h id hid
      simp only [addEdgesFromJSON, Option.some.injEq] at h
      subst h
      exact hid
  | cons e rest ih =>
      intro g g' h id hid
      simp only [addEdgesFromJSON, Option.bind_eq_some] at h
      obtain ⟨g1, h1, g2, h2, h⟩ := h
      have hid1 := Graph.ensurePlaceholder_mono_nodeKeys h1 hid
      have hid2 := Graph.ensurePlaceholder_mono_nodeKeys h2 hid1
      have hid3 : id ∈ (g2.addEdge e.fromId e.toId e.travel_time_minutes).nodeKeys := by
        rw [Graph.addEdge_nodeKeys]
        exact hid2
      exact ih _ _ h _ hid3

theorem addEdgesFromJSON_endpoints :
    ∀ (edges : List JEdge) (g g' : Graph), addEdgesFromJSON g edges = some g' →
      ∀ e ∈ edges, e.fromId ∈ g'.nodeKeys ∧ e.toId ∈ g'.nodeKeys := by
  intro edges
  induction edges with
  | nil =>
      intro g g' h e he
      simp at he
  | cons e0 rest ih =>
      intro g g' h e he
      simp only [addEdgesFromJSON, Option.bind_eq_some] at h
      obtain ⟨g1, h1, g2, h2, h⟩ := h
      rcases List.mem_cons.mp he with he | he
      · subst he
        have hfrom : e.fromId ∈ g2.nodeKeys :=
          Graph.ensurePlaceholder_mono_nodeKeys h2
            (Graph.ensurePlaceholder_mem h1)
        have hto : e.toId ∈ g2.nodeKeys := Graph.ensurePlaceholder_mem h2
        have hfrom2 : e.fromId ∈
            (g2.addEdge e.fromId e.toId e.travel_time_minutes).nodeKeys := by
          rw [Graph.addEdge_nodeKeys]; exact hfrom
        have hto2 : e.toId ∈
            (g2.addEdge e.fromId e.toId e.travel_time_minutes).nodeKeys := by
          rw [Graph.addEdge_nodeKeys]; exact hto
        exact ⟨addEdgesFromJSON_mono_nodeKeys rest _ _ h _ hfrom2,
          addEdgesFromJSON_mono_nodeKeys rest _ _ h _ hto2⟩
      · exact ih _ _ h e he

theorem addEdgesFromJSON_covered :
    ∀ (edges : List JEdge) (g g' : Graph), addEdgesFromJSON g edges = some g' →
      g.covered → g'.covered := by
  intro edges
  induction edges with
  | nil =>
      intro g g' h hc
      simp only [addEdgesFromJSON, Option.some.injEq] at h
      subst h
      exact hc
  | cons e rest ih =>
      intro g g' h hc
      simp only [addEdgesFromJSON, Option.bind_eq_some] at h
      obtain ⟨g1, h1, g2, h2, h⟩ := h
      exact ih _ _ h (Graph.addEdge_covered _ _ _ _
        (Graph.ensurePlaceholder_covered h2
          (Graph.ensurePlaceholder_covered h1 hc)))

theorem addNodesFromArray_covered :
    ∀ (ns : List RawNode) (g g' : Graph), addNodesFromArray g ns = some g' →
      g.covered → g'.covered := by
  intro ns
  induction ns with
  | nil =>
      intro g g' h hc
      simp only [addNodesFromArray, Option.some.injEq] at h
      subst h
      exact hc
  | cons n rest ih =>
      intro g g' h hc
      simp only [addNodesFromArray] at h
      by_cases hid : n.id = ""
      · rw [if_pos hid] at h
        exact ih _ _ h hc
      · rw [if_neg hid] at h
        rw [Option.bind_eq_some] at h
        obtain ⟨g1, h1, h⟩ := h
        exact ih _ _ h (Graph.addNode_covered h1 hc)

/-- C9: After `g = Graph.fromJSON(jsonEdges, nodesArray)` succeeds, every id
that occurs as the from or to endpoint of an edge has a node in `g.nodes`
(placeholders are created when absent), and every node id in `g.nodes` has
an entry in `g.adjacency`. -/
theorem fromJSON_nodes_closed (jsonEdges : List JEdge) (nodesArray : List RawNode)
    (g : Graph) (hg : Graph.fromJSON jsonEdges nodesArray = some g) :
    (∀ e ∈ jsonEdges, g.nodesHas e.fromId ∧ g.nodesHas e.toId) ∧
      (∀ id, g.nodesHas id → g.adjHas id) := by
  unfold Graph.fromJSON at hg
  rw [Option.bind_eq_some] at hg
  obtain ⟨g0, h0, hg⟩ := hg
  have hcov : g.covered :=
    addEdgesFromJSON_covered jsonEdges g0 g hg
      (addNodesFromArray_covered nodesArray Graph.empty g0 h0
        (by intro id hid; simp [Graph.empty, Graph.nodeKeys] at hid))
  constructor
  · intro e he
    have hends := addEdgesFromJSON_endpoints jsonEdges g0 g hg e he
    exact ⟨(assocFind_isSome_iff g.nodes e.fromId).mpr hends.1,
      (assocFind_isSome_iff g.nodes e.toId).mpr hends.2⟩
  · intro id hid
    have hmem : id ∈ g.nodeKeys := (assocFind_isSome_iff g.nodes id).mp hid
    exact (assocFind_isSome_iff g.adjacency id).mpr (hcov id hmem)

/-- A one-edge `jsonEdges` input between a market and a cauldron, neither of
which appears in the nodes array. -/
def demoJEdges : List JEdge := [⟨"market_m1", "cauldron_c1", 7⟩]

/-- The graph `Graph.fromJSON demoJEdges []` builds: both endpoints get
placeholder nodes by the id-prefix heuristic, and both get adjacency
entries. -/
def demoGraph : Graph :=
  { nodes := [("market_m1", ⟨"market_m1", .market⟩),
              ("cauldron_c1", ⟨"cauldron_c1", .cauldron⟩)]
    adjacency := [("market_m1", [("cauldron_c1", 7)]), ("cauldron_c1", [])] }

theorem demoGraph_fromJSON : Graph.fromJSON demoJEdges [] = some demoGraph := rfl

theorem fromJSON_nodes_closed_witness :
    Graph.fromJSON demoJEdges [] = some demoGraph ∧
      (∀ e ∈ demoJEdges, demoGraph.nodesHas e.fromId ∧ demoGraph.nodesHas e.toId) ∧
      (∀ id, demoGraph.nodesHas id → demoGraph.adjHas id) :=
  ⟨demoGraph_fromJSON,
    fromJSON_nodes_closed demoJEdges [] demoGraph demoGraph_fromJSON⟩

/-! ## Courier model (the repository's courier source) -/

/-- The courier (witch) model.  `currentNodeId = ""` models the JS `null`
current position (the source tests it with JS truthiness). -/
structure Courier where
  courierId : String
  name : String
  maxCarryingCapacity : ℚ
  currentNodeId : String
  cargo : ℚ
  history : List String
  deriving DecidableEq

/-- The body of `canMoveTo`'s neighbor test:
`({node}) => node && node.id === targetId`. -/
def neighborHits (targetId : String) (p : Option Node × ℚ) : Bool :=
  match p.1 with
  | some n => n.id == targetId
  | none => false

/-- `Courier.canMoveTo(targetId, graph)`: true when an outgoing or incoming
neighbor of the current node resolves to a node whose id is the target. -/
def Courier.canMoveTo (c : Courier) (targetId : String) (g : Graph) : Bool :=
  if c.currentNodeId = "" then false
  else if (g.getNeighbors c.currentNodeId).any (neighborHits targetId) then true
  else (g.getIncomingNeighbors c.currentNodeId).any (neighborHits targetId)

/-- `Courier.moveTo(targetId, graph)`: returns the JS boolean result together
with the courier state after the call. -/
def Courier.moveTo (c : Courier) (targetId : String) (g : Graph) :
    Bool × Courier :=
  if c.currentNodeId = "" then
    match g.getNode targetId with
    | none => (false, c)
    | some _ =>
        (true, { c with currentNodeId := targetId,
                        history := c.history ++ [targetId] })
  else if c.currentNodeId = targetId then (true, c)
  else if c.canMoveTo targetId g then
    (true, { c with currentNodeId := targetId,
                    history := c.history ++ [targetId] })
  else (false, c)

/-- There is a directed edge between the current node and the target, in
either orientation (outgoing edges read through the adjacency entry of the
current node, incoming edges found by scanning all adjacency entries — the
two lookups `canMoveTo` performs). -/
def oneStepEdge (g : Graph) (cur targetId : String) : Prop :=
  (∃ e ∈ ((assocFind g.adjacency cur).getD []), e.1 = targetId) ∨
  (∃ kl ∈ g.adjacency, kl.1 = targetId ∧ ∃ e ∈ kl.2, e.1 = cur)

instance (g : Graph) (cur targetId : String) :
    Decidable (oneStepEdge g cur targetId) := by
  unfold oneStepEdge
  infer_instance

/-- The move-permission predicate exactly as claim C10 words it: no current
position and the target exists, or the target is the current node, or the
target is one step away along an outgoing or incoming edge. -/
def movePermittedClaim (g : Graph) (c : Courier) (targetId : String) : Prop :=
  (c.currentNodeId = "" ∧ (g.getNode targetId).isSome) ∨
    c.currentNodeId = targetId ∨
    oneStepEdge g c.currentNodeId targetId

instance (g : Graph) (c : Courier) (targetId : String) :
    Decidable (movePermittedClaim g c targetId) := by
  unfold movePermittedClaim
  infer_instance

/-- A graph whose adjacency has the edge a → b but whose node map is empty:
`addEdge` never creates node entries. -/
def cexGraphC10 : Graph := Graph.empty.addEdge "a" "b" 1

/-- A courier standing at node a. -/
def cexCourier : Courier :=
  { courierId := "courier_witch_01", name := "Witch A",
    maxCarryingCapacity := 100, currentNodeId := "a", cargo := 0,
    history := ["a"] }

/-- C10 counterexample: the edge a → b exists, so the claim's permission
predicate holds, yet `moveTo` returns false because b has no node entry —
`canMoveTo` resolves neighbors through `graph.nodes` and drops null nodes. -/
theorem moveTo_claim_counterexample :
    oneStepEdge cexGraphC10 "a" "b" ∧
      (cexCourier.moveTo "b" cexGraphC10).1 = false ∧
      ¬ (((cexCourier.moveTo "b" cexGraphC10).1 = true) ↔
          movePermittedClaim cexGraphC10 cexCourier "b") := by
  decide

/-- Node-map entries carry ids equal to their keys — true of every graph the
class builds, since `addNode` stores each node under its own id. -/
def Graph.idsConsistent (g : Graph) : Prop :=
  ∀ kn ∈ g.nodes, (kn.2).id = kn.1

instance (g : Graph) : Decidable g.idsConsistent := by
  unfold Graph.idsConsistent
  infer_instance

theorem Graph.getNode_id {g : Graph} (hwf : g.idsConsistent) {k : String}
    {n : Node} (h : g.getNode k = some n) : n.id = k :=
  hwf (k, n) (assocFind_mem h)

theorem neighborHits_iff (targetId : String) (p : Option Node × ℚ) :
    neighborHits targetId p = true ↔ ∃ n, p.1 = some n ∧ n.id = targetId := by
  obtain ⟨o, w⟩ := p
  cases o with
  | none => simp [neighborHits]
  | some n => simp [neighborHits]

theorem outgoing_any_iff (g : Graph) (cur targetId : String) :
    (g.getNeighbors cur).any (neighborHits targetId) = true ↔
      ∃ e ∈ ((assocFind g.adjacency cur).getD []),
        ∃ n, g.getNode e.1 = some n ∧ n.id = targetId := by
  unfold Graph.getNeighbors
  rw [List.any_eq_true]
  constructor
  · rintro ⟨p, hp, hhit⟩
    rw [List.mem_map] at hp
    obtain ⟨e, he, rfl⟩ := hp
    rw [neighborHits_iff] at hhit
    obtain ⟨n, hn, hid⟩ := hhit
    exact ⟨e, he, n, hn, hid⟩
  · rintro ⟨e, he, n, hn, hid⟩
    refine ⟨(g.getNode e.1, e.2), List.mem_map.mpr ⟨e, he, rfl⟩, ?_⟩
    rw [neighborHits_iff]
    exact ⟨n, hn, hid⟩

theorem incoming_any_iff (g : Graph) (cur targetId : String) :
    (g.getIncomingNeighbors cur).any (neighborHits targetId) = true ↔
      ∃ kl ∈ g.adjacency, ∃ e ∈ kl.2, e.1 = cur ∧
        ∃ n, g.getNode kl.1 = some n ∧ n.id = targetId := by
  unfold Graph.getIncomingNeighbors
  rw [List.any_eq_true]
  constructor
  · rintro ⟨p, hp, hhit⟩
    rw [List.mem_flatten] at hp
    obtain ⟨l, hl, hpl⟩ := hp
    rw [List.mem_map] at hl
    obtain ⟨kl, hkl, rfl⟩ := hl
    rw [List.mem_map] at hpl
    obtain ⟨e, he, rfl⟩ := hpl
    rw [List.mem_filter] at he
    obtain ⟨hemem, hecur⟩ := he
    rw [neighborHits_iff] at hhit
    obtain ⟨n, hn, hid⟩ := hhit
    exact ⟨kl, hkl, e, hemem, beq_iff_eq.mp hecur, n, hn, hid⟩
  · rintro ⟨kl, hkl, e, hemem, hecur, n, hn, hid⟩
    refine ⟨(g.getNode kl.1, e.2), ?_, ?_⟩
    · rw [List.mem_flatten]
      refine ⟨_, List.mem_map.mpr ⟨kl, hkl, rfl⟩, ?_⟩
      exact List.mem_map.mpr ⟨e, List.mem_filter.mpr ⟨hemem, beq_iff_eq.mpr hecur⟩, rfl⟩
    · rw [neighborHits_iff]
      exact ⟨n, hn, hid⟩

theorem canMoveTo_iff {g : Graph} (hwf : g.idsConsistent) (c : Courier)
    (targetId : String) (hcur : c.currentNodeId ≠ "") :
    c.canMoveTo targetId g = true ↔
      oneStepEdge g c.currentNodeId targetId ∧ (g.getNode targetId).isSome := by
  unfold Courier.canMoveTo
  rw [if_neg hcur]
  have hout : (g.getNeighbors c.currentNodeId).any (neighborHits targetId) = true ↔
      (∃ e ∈ ((assocFind g.adjacency c.currentNodeId).getD []), e.1 = targetId) ∧
        (g.getNode targetId).isSome := by
    rw [outgoing_any_iff]
    constructor
    · rintro ⟨e, he, n, hn, hid⟩
      have htar : e.1 = targetId := by
        rw [← Graph.getNode_id hwf hn]
        exact hid
      refine ⟨⟨e, he, htar⟩, ?_⟩
      rw [← htar, hn]
      rfl
    · rintro ⟨⟨e, he, htar⟩, hsome⟩
      rw [Option.isSome_iff_exists] at hsome
      obtain ⟨n, hn⟩ := hsome
      refine ⟨e, he, n, ?_, Graph.getNode_id hwf hn⟩
      rw [htar]
      exact hn
  have hinc : (g.getIncomingNeighbors c.currentNodeId).any (neighborHits targetId) = true ↔
      (∃ kl ∈ g.adjacency, kl.1 = targetId ∧ ∃ e ∈ kl.2, e.1 = c.currentNodeId) ∧
        (g.getNode targetId).isSome := by
    rw [incoming_any_iff]
    constructor
    · rintro ⟨kl, hkl, e, hemem, hecur, n, hn, hid⟩
      have htar : kl.1 = targetId := by
        rw [← Graph.getNode_id hwf hn]
        exact hid
      refine ⟨⟨kl, hkl, htar, e, hemem, hecur⟩, ?_⟩
      rw [← htar, hn]
      rfl
    · rintro ⟨⟨kl, hkl, htar, e, hemem, hecur⟩, hsome⟩
      rw [Option.isSome_iff_exists] at hsome
      obtain ⟨n, hn⟩ := hsome
      refine ⟨kl, hkl, e, hemem, hecur, n, ?_, Graph.getNode_id hwf hn⟩
      rw [htar]
      exact hn
  by_cases ho : (g.getNeighbors c.currentNodeId).any (neighborHits targetId) = true
  · rw [if_pos ho]
    have hres := hout.mp ho
    simp only [true_iff]
    exact ⟨Or.inl hres.1, hres.2⟩
  · rw [if_neg ho]
    rw [hinc]
    unfold oneStepEdge
    constructor
    · rintro ⟨hedge, hsome⟩
      exact ⟨Or.inr hedge, hsome⟩
    · rintro ⟨hedge, hsome⟩
      rcases hedge with hedge | hedge
      · exact absurd (hout.mpr ⟨hedge, hsome⟩) ho
      · exact ⟨hedge, hsome⟩

/-- C10 amended: for graphs whose node-map entries carry ids equal to their
keys (true of every graph the class builds), `moveTo` returns true iff the
courier has no current position and the target has a node in the graph, or
the target equals the (non-empty) current node, or the target is reachable
in one step via an outgoing or incoming edge of the current node AND the
target has a node entry in the graph; and whenever `moveTo` returns false
the courier's currentNodeId and history are left unchanged. -/
theorem moveTo_spec (g : Graph) (c : Courier) (targetId : String)
    (hwf : g.idsConsistent) :
    ((c.moveTo targetId g).1 = true ↔
      (c.currentNodeId = "" ∧ (g.getNode targetId).isSome) ∨
        (c.currentNodeId ≠ "" ∧ c.currentNodeId = targetId) ∨
        (c.currentNodeId ≠ "" ∧ c.currentNodeId ≠ targetId ∧
          oneStepEdge g c.currentNodeId targetId ∧ (g.getNode targetId).isSome)) ∧
    ((c.moveTo targetId g).1 = false → (c.moveTo targetId g).2 = c) := by
  unfold Courier.moveTo
  by_cases hcur : c.currentNodeId = ""
  · rw [if_pos hcur]
    cases hn : g.getNode targetId with
    | none =>
        simp only [hn]
        constructor
        · simp only [Bool.false_eq_true, false_iff]
          rintro (⟨hc, hsome⟩ | ⟨hne, hdummy⟩ | ⟨hne, hrest⟩)
          · cases hsome
          · exact hne hcur
          · exact hne hcur
        · intro hdummy
          trivial
    | some n =>
        simp only [hn]
        constructor
        · simp only [true_iff]
          exact Or.inl ⟨hcur, rfl⟩
        · intro hfalse
          cases hfalse
  · rw [if_neg hcur]
    by_cases heq : c.currentNodeId = targetId
    · rw [if_pos heq]
      constructor
      · simp only [true_iff]
        exact Or.inr (Or.inl ⟨hcur, heq⟩)
      · intro hfalse
        cases hfalse
    · rw [if_neg heq]
      by_cases hmove : c.canMoveTo targetId g = true
      · rw [if_pos hmove]
        constructor
        · simp only [true_iff]
          have := (canMoveTo_iff hwf c targetId hcur).mp hmove
          exact Or.inr (Or.inr ⟨hcur, heq, this.1, this.2⟩)
        · intro hfalse
          cases hfalse
      · rw [if_neg hmove]
        constructor
        · simp only [Bool.false_eq_true, false_iff]
          rintro (⟨hc, hsome⟩ | ⟨hne, heq2⟩ | ⟨hne, hne2, hedge, hsome⟩)
          · exact hcur hc
          · exact heq heq2
          · exact hmove ((canMoveTo_iff hwf c targetId hcur).mpr ⟨hedge, hsome⟩)
        · intro hdummy
          rfl

/-- A courier standing at the market node of `demoGraph`. -/
def demoCourier : Courier :=
  { courierId := "courier_witch_02", name := "Witch B",
    maxCarryingCapacity := 100, currentNodeId := "market_m1", cargo := 0,
    history := ["market_m1"] }

theorem moveTo_spec_witness :
    demoGraph.idsConsistent ∧
      (((demoCourier.moveTo "cauldron_c1" demoGraph).1 = true ↔
        (demoCourier.currentNodeId = "" ∧ (demoGraph.getNode "cauldron_c1").isSome) ∨
          (demoCourier.currentNodeId ≠ "" ∧ demoCourier.currentNodeId = "cauldron_c1") ∨
          (demoCourier.currentNodeId ≠ "" ∧ demoCourier.currentNodeId ≠ "cauldron_c1" ∧
            oneStepEdge demoGraph demoCourier.currentNodeId "cauldron_c1" ∧
            (demoGraph.getNode "cauldron_c1").isSome)) ∧
      ((demoCourier.moveTo "cauldron_c1" demoGraph).1 = false →
        (demoCourier.moveTo "cauldron_c1" demoGraph).2 = demoCourier)) :=
  ⟨by decide, moveTo_spec demoGraph demoCourier "cauldron_c1" (by decide)⟩

/-! ## shortestPath (Dijkstra over outgoing and incoming edges,
apiProxyRoutes.js)

The JS `dist` map is modelled as a total function into `WithTop ℚ` (`⊤` is
`Infinity`); entries the JS map does not hold are `⊤`, which agrees with the
source on every graph whose adjacency keys are closed under edge targets —
true of all graphs `addEdge`/`fromJSON` build, and the graphs the claims
quantify over. -/

/-- The state of the Dijkstra loop: tentative distances and the predecessor
map (JS `prev`; later `set`s shadow earlier ones, modelled by prepending). -/
structure DState where
  dist : String → WithTop ℚ
  prev : List (String × String)

/-- The extract-min scan of the JS loop: iterate over the remaining set in
insertion order, keeping the first strict improvement over the best so far. -/
def scanMin (dist : String → WithTop ℚ) :
    List String → Option String → WithTop ℚ → Option String
  | [], u, _ => u
  | q :: rest, u, best =>
      if dist q < best then scanMin dist rest (some q) (dist q)
      else scanMin dist rest u best

/-- Relax one neighbor edge `(to, w)` of `u` (JS `alt < dist.get(to)`). -/
def relaxStep (u : String) (st : DState) (e : String × ℚ) : DState :=
  if st.dist u + (e.2 : WithTop ℚ) < st.dist e.1 then
    { dist := Function.update st.dist e.1 (st.dist u + (e.2 : WithTop ℚ))
      prev := (e.1, u) :: st.prev }
  else st

/-- Relax all neighbor edges of `u` in order. -/
def relaxAll (u : String) (st : DState) (es : List (String × ℚ)) : DState :=
  es.foldl (relaxStep u) st

/-- The neighbor list the JS loop builds for `u`: all outgoing edges of `u`
followed by the reversals of all incoming edges (same weight). -/
def neighborsOf (g : Graph) (u : String) : List (String × ℚ) :=
  ((assocFind g.adjacency u).getD []) ++
    (g.adjacency.map fun kl =>
      (kl.2.filter fun e => e.1 == u).map fun e => (kl.1, e.2)).flatten

/-- The Dijkstra loop.  `fuel` bounds the recursion; the top-level call
passes the number of adjacency keys, which the loop never needs to exceed
since every iteration removes the extracted node from `q`. -/
def dLoop (g : Graph) (endId : String) : ℕ → DState → List String → DState
  | 0, st, _ => st
  | fuel + 1, st, q =>
      match scanMin st.dist q none ⊤ with
      | none => st
      | some u =>
          if u = endId then st
          else dLoop g endId fuel (relaxAll u st (neighborsOf g u)) (q.erase u)

/-- The JS path reconstruction: unshift nodes following `prev` until the
start (or a missing predecessor) is reached. -/
def buildPath (prev : List (String × String)) (startId : String) :
    ℕ → String → List String → List String
  | 0, _, acc => acc
  | fuel + 1, u, acc =>
      if u = startId then u :: acc
      else
        match assocFind prev u with
        | some p => buildPath prev startId fuel p (u :: acc)
        | none => u :: acc

/-- `Graph.shortestPath(startId, endId)`: null when either endpoint is
missing from the adjacency map or the end was never reached; otherwise the
reconstructed path and its cost. -/
def Graph.shortestPath (g : Graph) (startId endId : String) :
    Option (List String × WithTop ℚ) :=
  if (assocFind g.adjacency startId).isSome ∧ (assocFind g.adjacency endId).isSome then
    let st0 : DState :=
      { dist := fun v => if v = startId then ((0 : ℚ) : WithTop ℚ) else ⊤
        prev := [] }
    let stf := dLoop g endId g.adjKeys.length st0 g.adjKeys
    if (assocFind stf.prev endId).isNone ∧ startId ≠ endId then none
    else some (buildPath stf.prev startId (stf.prev.length + 1) endId [], stf.dist endId)
  else none

/-- Claim C8's conclusion at one pair of endpoints: the two directed runs
are both null or return the same cost. -/
def costSym (r1 r2 : Option (List String × WithTop ℚ)) : Prop :=
  match r1, r2 with
  | none, none => True
  | some p1, some p2 => p1.2 = p2.2
  | _, _ => False

/-- The `jsonEdges` of the C8 counterexample: one negative travel time. -/
def cexDijE : List JEdge := [⟨"s", "t", 5⟩, ⟨"s", "a", 10⟩, ⟨"a", "t", -100⟩]

/-- The graph `Graph.fromJSON cexDijE []` builds. -/
def cexDijG : Graph :=
  { nodes := [("s", ⟨"s", .plain⟩), ("t", ⟨"t", .plain⟩), ("a", ⟨"a", .plain⟩)]
    adjacency := [("s", [("t", 5), ("a", 10)]), ("t", []), ("a", [("t", -100)])] }

theorem cexDijG_fromJSON : Graph.fromJSON cexDijE [] = some cexDijG := rfl

theorem cex_run_st :
    cexDijG.shortestPath "s" "t" = some (["s", "t"], ((5 : ℚ) : WithTop ℚ)) := by
  have hts : ("t" : String) = "s" ↔ False := by simp
  have hst : ("s" : String) = "t" ↔ False := by simp
  have has : ("a" : String) = "s" ↔ False := by simp
  have hsa : ("s" : String) = "a" ↔ False := by simp
  have hat : ("a" : String) = "t" ↔ False := by simp
  have hta : ("t" : String) = "a" ↔ False := by simp
  norm_num [Graph.shortestPath, dLoop, scanMin, relaxAll, relaxStep, neighborsOf,
    buildPath, Graph.adjKeys, cexDijG, assocFind, Function.update, List.erase,
    List.foldl, hts, hst, has, hsa, hat, hta,
    ← WithTop.coe_add, WithTop.coe_lt_top, WithTop.coe_lt_coe, not_top_lt,
    -WithTop.coe_ofNat, -WithTop.coe_zero, -WithTop.coe_one]

theorem cex_run_ts :
    cexDijG.shortestPath "t" "s" = some (["t", "a", "s"], ((-90 : ℚ) : WithTop ℚ)) := by
  have hts : ("t" : String) = "s" ↔ False := by simp
  have hst : ("s" : String) = "t" ↔ False := by simp
  have has : ("a" : String) = "s" ↔ False := by simp
  have hsa : ("s" : String) = "a" ↔ False := by simp
  have hat : ("a" : String) = "t" ↔ False := by simp
  have hta : ("t" : String) = "a" ↔ False := by simp
  norm_num [Graph.shortestPath, dLoop, scanMin, relaxAll, relaxStep, neighborsOf,
    buildPath, Graph.adjKeys, cexDijG, assocFind, Function.update, List.erase,
    List.foldl, hts, hst, has, hsa, hat, hta,
    ← WithTop.coe_add, WithTop.coe_lt_top, WithTop.coe_lt_coe, not_top_lt,
    -WithTop.coe_ofNat, -WithTop.coe_zero, -WithTop.coe_one, -WithTop.LinearOrderedAddCommGroup.coe_neg]

/-- C8 counterexample: on the `fromJSON`-built graph with edges s→t (5),
s→a (10), a→t (−100), both directed runs succeed but return different costs
(5 and −90): with a negative travel time the greedy extraction order and the
early exit at the target make the two directions disagree, so the claim as
stated — over every graph built by `Graph.fromJSON` — is false. -/
theorem shortestPath_claim_counterexample :
    Graph.fromJSON cexDijE [] = some cexDijG ∧
      cexDijG.adjHas "s" ∧ cexDijG.adjHas "t" ∧
      (cexDijG.shortestPath "s" "t").map Prod.snd = some ((5 : ℚ) : WithTop ℚ) ∧
      (cexDijG.shortestPath "t" "s").map Prod.snd = some ((-90 : ℚ) : WithTop ℚ) ∧
      ¬ costSym (cexDijG.shortestPath "s" "t") (cexDijG.shortestPath "t" "s") := by
  refine ⟨cexDijG_fromJSON, by decide, by decide, ?_, ?_, ?_⟩
  · rw [cex_run_st]
    rfl
  · rw [cex_run_ts]
    rfl
  · rw [cex_run_st, cex_run_ts]
    simp only [costSym]
    rw [WithTop.coe_eq_coe]
    norm_num

/-! ## Walks over the symmetrized edge relation

`shortestPath` treats each directed edge as traversable both ways at the
same weight, so its specification is phrased over walks in that symmetrized
graph. -/

/-- A vertex is a key of the adjacency map. -/
def isKey (g : Graph) (v : String) : Prop := v ∈ g.adjKeys

instance (g : Graph) (v : String) : Decidable (isKey g v) := by
  unfold isKey
  infer_instance

/-- Some adjacency entry holds the directed edge u → v or v → u with weight
w: exactly the connections the loop's neighbor list realizes for u. -/
def symEdge (g : Graph) (u v : String) (w : ℚ) : Prop :=
  (∃ kl ∈ g.adjacency, kl.1 = u ∧ (v, w) ∈ kl.2) ∨
    (∃ kl ∈ g.adjacency, kl.1 = v ∧ (u, w) ∈ kl.2)

/-- Edge targets are themselves adjacency keys (every graph `addEdge` builds
satisfies this). -/
def adjClosed (g : Graph) : Prop :=
  ∀ kl ∈ g.adjacency, ∀ e ∈ kl.2, isKey g e.1

/-- All stored travel times are non-negative. -/
def nonnegWeights (g : Graph) : Prop :=
  ∀ kl ∈ g.adjacency, ∀ e ∈ kl.2, 0 ≤ e.2

/-- The adjacency keys are distinct (JS `Map` keys always are). -/
def adjNodup (g : Graph) : Prop := g.adjKeys.Nodup

theorem symEdge_symm {g : Graph} {u v : String} {w : ℚ}
    (h : symEdge g u v w) : symEdge g v u w := h.symm

theorem symEdge_key_left {g : Graph} (hcl : adjClosed g) {u v : String} {w : ℚ}
    (h : symEdge g u v w) : isKey g u := by
  rcases h with ⟨kl, hkl, hk, hmem⟩ | ⟨kl, hkl, hk, hmem⟩
  · subst hk
    exact List.mem_map.mpr ⟨kl, hkl, rfl⟩
  · exact hcl kl hkl (u, w) hmem

theorem symEdge_key_right {g : Graph} (hcl : adjClosed g) {u v : String} {w : ℚ}
    (h : symEdge g u v w) : isKey g v :=
  symEdge_key_left hcl (symEdge_symm h)

theorem symEdge_nonneg {g : Graph} (hnn : nonnegWeights g) {u v : String} {w : ℚ}
    (h : symEdge g u v w) : 0 ≤ w := by
  rcases h with ⟨kl, hkl, hk, hmem⟩ | ⟨kl, hkl, hk, hmem⟩
  · exact hnn kl hkl (v, w) hmem
  · exact hnn kl hkl (u, w) hmem

/-- A walk from `a` to `b` of total cost `c` whose vertices other than the
final one all satisfy `S`. -/
inductive WalkIn (g : Graph) (S : String → Prop) : String → String → ℚ → Prop where
  | nil (v : String) (hv : isKey g v) : WalkIn g S v v 0
  | cons {u v t : String} {w c : ℚ} (hu : S u) (he : symEdge g u v w)
      (p : WalkIn g S v t c) : WalkIn g S u t (w + c)

/-- An unrestricted walk in the symmetrized graph. -/
def Walk (g : Graph) : String → String → ℚ → Prop := WalkIn g fun x => True

theorem WalkIn.mono {g : Graph} {S T : String → Prop} (hST : ∀ x, S x → T x) :
    ∀ {a b : String} {c : ℚ}, WalkIn g S a b c → WalkIn g T a b c := by
  intro a b c p
  induction p with
  | nil v hv => exact WalkIn.nil v hv
  | cons hu he p ih => exact WalkIn.cons (hST _ hu) he ih

theorem WalkIn.toWalk {g : Graph} {S : String → Prop} {a b : String} {c : ℚ}
    (p : WalkIn g S a b c) : Walk g a b c :=
  p.mono fun x hx => trivial

theorem WalkIn.cost_nonneg {g : Graph} (hnn : nonnegWeights g)
    {S : String → Prop} : ∀ {a b : String} {c : ℚ}, WalkIn g S a b c → 0 ≤ c := by
  intro a b c p
  induction p with
  | nil v hv => exact le_refl 0
  | cons hu he p ih => exact add_nonneg (symEdge_nonneg hnn he) ih

theorem WalkIn.end_key {g : Graph} {S : String → Prop} :
    ∀ {a b : String} {c : ℚ}, WalkIn g S a b c → isKey g b := by
  intro a b c p
  induction p with
  | nil v hv => exact hv
  | cons hu he p ih => exact ih

theorem Walk.snoc {g : Graph} (hcl : adjClosed g) {a b v : String} {c w : ℚ}
    (p : Walk g a b c) (he : symEdge g b v w) : Walk g a v (c + w) := by
  induction p with
  | nil x hx =>
      have h0 : w + 0 = 0 + w := by ring
      have := WalkIn.cons (g := g) (S := fun x => True) trivial he
        (WalkIn.nil v (symEdge_key_right hcl he))
      rw [h0] at this
      exact this
  | cons hu he0 p ih =>
      rename_i u x t w0 c0
      have := WalkIn.cons (g := g) (S := fun x => True) trivial he0 (ih he)
      have harr : w0 + (c0 + w) = w0 + c0 + w := by ring
      rw [harr] at this
      exact this

theorem Walk.reverse {g : Graph} (hcl : adjClosed g) {a b : String} {c : ℚ}
    (p : Walk g a b c) : Walk g b a c := by
  induction p with
  | nil v hv => exact WalkIn.nil v hv
  | cons hu he p ih =>
      rename_i u v t w c0
      have := Walk.snoc hcl ih (symEdge_symm he)
      have harr : c0 + w = w + c0 := by ring
      rw [harr] at this
      exact this

theorem WalkIn.snoc_elim {g : Graph} (hcl : adjClosed g) {S : String → Prop} :
    ∀ {a y : String} {c : ℚ}, WalkIn g S a y c →
      (a = y ∧ c = 0) ∨
        ∃ x w c₁, WalkIn g S a x c₁ ∧ S x ∧ symEdge g x y w ∧ c = c₁ + w := by
  intro a y c p
  induction p with
  | nil v hv => exact Or.inl ⟨rfl, rfl⟩
  | cons hu he p ih =>
      rename_i u v t w c0
      rcases ih with ⟨heq, hc0⟩ | ⟨x, w1, c₁, p1, hx, he1, hc1⟩
      · subst heq
        subst hc0
        refine Or.inr ⟨u, w, 0, WalkIn.nil u (symEdge_key_left hcl he), hu, he, ?_⟩
        ring
      · refine Or.inr ⟨x, w1, w + c₁, WalkIn.cons hu he p1, hx, he1, ?_⟩
        rw [hc1]
        ring

theorem walk_frontier {g : Graph} (hcl : adjClosed g) (hnn : nonnegWeights g)
    (S : String → Prop) :
    ∀ {a b : String} {c : ℚ}, Walk g a b c →
      WalkIn g S a b c ∨
        ∃ z c₁, ¬ S z ∧ isKey g z ∧ WalkIn g S a z c₁ ∧ c₁ ≤ c := by
  intro a b c p
  induction p with
  | nil v hv => exact Or.inl (WalkIn.nil v hv)
  | cons hu he p ih =>
      rename_i u v t w c0
      by_cases hSu : S u
      · rcases ih with p1 | ⟨z, c₁, hz, hzk, p1, hle⟩
        · exact Or.inl (WalkIn.cons hSu he p1)
        · exact Or.inr ⟨z, w + c₁, hz, hzk, WalkIn.cons hSu he p1, by linarith⟩
      · refine Or.inr ⟨u, 0, hSu, symEdge_key_left hcl he,
          WalkIn.nil u (symEdge_key_left hcl he), ?_⟩
        have hw : 0 ≤ w := symEdge_nonneg hnn he
        have hc0 : 0 ≤ c0 := WalkIn.cost_nonneg hnn p
        linarith

/-- With distinct adjacency keys, first-match lookup coincides with entry
membership. -/
theorem assocFind_eq_of_mem_nodup {α : Type} {l : List (String × α)}
    (hnd : (l.map Prod.fst).Nodup) {k : String} {v : α} (h : (k, v) ∈ l) :
    assocFind l k = some v := by
  induction l with
  | nil => simp at h
  | cons hd tl ih =>
      obtain ⟨k0, v0⟩ := hd
      simp only [List.map_cons, List.nodup_cons] at hnd
      rcases List.mem_cons.mp h with h | h
      · injection h with h1 h2
        subst h1
        subst h2
        simp [assocFind]
      · have hk0 : k0 ≠ k := by
          intro hk0
          subst hk0
          exact hnd.1 (List.mem_map.mpr ⟨(k0, v), h, rfl⟩)
        simp only [assocFind, if_neg hk0]
        exact ih hnd.2 h

/-- Characterization of the loop's neighbor list: it holds exactly the
symmetrized edges at `u` (given distinct adjacency keys). -/
theorem mem_neighborsOf_iff {g : Graph} (hnd : adjNodup g) {u v : String}
    {w : ℚ} : (v, w) ∈ neighborsOf g u ↔ symEdge g u v w := by
  unfold neighborsOf symEdge
  rw [List.mem_append]
  constructor
  · rintro (h | h)
    · left
      cases hfind : assocFind g.adjacency u with
      | none => rw [hfind] at h; simp at h
      | some l =>
          rw [hfind] at h
          simp only [Option.getD_some] at h
          exact ⟨(u, l), assocFind_mem hfind, rfl, h⟩
    · right
      rw [List.mem_flatten] at h
      obtain ⟨l, hl, hmem⟩ := h
      rw [List.mem_map] at hl
      obtain ⟨kl, hkl, rfl⟩ := hl
      rw [List.mem_map] at hmem
      obtain ⟨e, he, heq⟩ := hmem
      rw [List.mem_filter] at he
      obtain ⟨hemem, heu⟩ := he
      injection heq with h1 h2
      refine ⟨kl, hkl, h1, ?_⟩
      have heu2 : e.1 = u := beq_iff_eq.mp heu
      have he2 : e = (u, w) := by
        obtain ⟨e1, e2⟩ := e
        simp only at heu2 h2
        rw [heu2, h2]
      rw [← he2]
      exact hemem
  · rintro (⟨kl, hkl, hk, hmem⟩ | ⟨kl, hkl, hk, hmem⟩)
    · left
      obtain ⟨k1, l1⟩ := kl
      simp only at hk
      subst hk
      rw [assocFind_eq_of_mem_nodup hnd hkl]
      exact hmem
    · right
      rw [List.mem_flatten]
      refine ⟨_, List.mem_map.mpr ⟨kl, hkl, rfl⟩, ?_⟩
      rw [List.mem_map]
      refine ⟨(u, w), List.mem_filter.mpr ⟨hmem, beq_iff_eq.mpr rfl⟩, ?_⟩
      rw [hk]

/-! ## The extract-min scan -/

theorem scanMin_none_spec (dist : String → WithTop ℚ) :
    ∀ (l : List String) (acc : Option String) (best : WithTop ℚ),
      (∀ x, acc = some x → dist x = best ∧ dist x < ⊤) →
      scanMin dist l acc best = none →
      acc = none ∧ ∀ x ∈ l, ¬ dist x < best := by
  intro l
  induction l with
  | nil =>
      intro acc best hacc h
      simp only [scanMin] at h
      exact ⟨h, by simp⟩
  | cons q rest ih =>
      intro acc best hacc h
      simp only [scanMin] at h
      by_cases hq : dist q < best
      · rw [if_pos hq] at h
        have hacc2 : ∀ x, (some q : Option String) = some x →
            dist x = dist q ∧ dist x < ⊤ := by
          intro x hx
          injection hx with hx
          subst hx
          exact ⟨rfl, lt_of_lt_of_le hq le_top⟩
        have := (ih (some q) (dist q) hacc2 h).1
        cases this
      · rw [if_neg hq] at h
        obtain ⟨hn, hall⟩ := ih acc best hacc h
        refine ⟨hn, ?_⟩
        intro x hx
        rcases List.mem_cons.mp hx with hx | hx
        · subst hx
          exact hq
        · exact hall x hx

theorem scanMin_some_spec (dist : String → WithTop ℚ) :
    ∀ (l : List String) (acc : Option String) (best : WithTop ℚ) (u : String),
      (∀ x, acc = some x → dist x = best ∧ dist x < ⊤) →
      scanMin dist l acc best = some u →
      dist u < ⊤ ∧ dist u ≤ best ∧ (∀ x ∈ l, dist u ≤ dist x) ∧
        (acc = some u ∨ u ∈ l) := by
  intro l
  induction l with
  | nil =>
      intro acc best u hacc h
      simp only [scanMin] at h
      have hx := hacc u h
      exact ⟨hx.2, le_of_eq hx.1, by simp, Or.inl h⟩
  | cons q rest ih =>
      intro acc best u hacc h
      simp only [scanMin] at h
      by_cases hq : dist q < best
      · rw [if_pos hq] at h
        have hacc2 : ∀ x, (some q : Option String) = some x →
            dist x = dist q ∧ dist x < ⊤ := by
          intro x hx
          injection hx with hx
          subst hx
          exact ⟨rfl, lt_of_lt_of_le hq le_top⟩
        obtain ⟨htop, hle, hall, hmem⟩ := ih (some q) (dist q) u hacc2 h
        refine ⟨htop, le_of_lt (lt_of_le_of_lt hle hq), ?_, ?_⟩
        · intro x hx
          rcases List.mem_cons.mp hx with hx | hx
          · subst hx
            exact hle
          · exact hall x hx
        · rcases hmem with hmem | hmem
          · injection hmem with hmem
            exact Or.inr (List.mem_cons.mpr (Or.inl hmem.symm))
          · exact Or.inr (List.mem_cons.mpr (Or.inr hmem))
      · rw [if_neg hq] at h
        obtain ⟨htop, hle, hall, hmem⟩ := ih acc best u hacc h
        refine ⟨htop, hle, ?_, ?_⟩
        · intro x hx
          rcases List.mem_cons.mp hx with hx | hx
          · subst hx
            exact le_trans hle (not_lt.mp hq)
          · exact hall x hx
        · rcases hmem with hmem | hmem
          · exact Or.inl hmem
          · exact Or.inr (List.mem_cons.mpr (Or.inr hmem))

theorem scanMin_eq_none {dist : String → WithTop ℚ} {l : List String}
    (h : scanMin dist l none ⊤ = none) : ∀ x ∈ l, dist x = ⊤ := by
  have := scanMin_none_spec dist l none ⊤ (by intro x hx; cases hx) h
  intro x hx
  have hnx := this.2 x hx
  by_contra hne
  exact hnx (lt_top_iff_ne_top.mpr hne)

theorem scanMin_eq_some {dist : String → WithTop ℚ} {l : List String}
    {u : String} (h : scanMin dist l none ⊤ = some u) :
    u ∈ l ∧ dist u < ⊤ ∧ ∀ x ∈ l, dist u ≤ dist x := by
  obtain ⟨htop, hle, hall, hmem⟩ :=
    scanMin_some_spec dist l none ⊤ u (by intro x hx; cases hx) h
  rcases hmem with hmem | hmem
  · cases hmem
  · exact ⟨hmem, htop, hall⟩

/-! ## The relaxation fold -/

theorem coe_nonneg_top {w : ℚ} (hw : 0 ≤ w) : (0 : WithTop ℚ) ≤ (w : WithTop ℚ) := by
  exact_mod_cast hw

theorem relaxStep_spec (u : String) (st : DState) (e : String × ℚ) (hw : 0 ≤ e.2) :
    ((relaxStep u st e).dist u = st.dist u) ∧
    (∀ v, (relaxStep u st e).dist v ≤ st.dist v) ∧
    ((relaxStep u st e).dist e.1 ≤ st.dist u + (e.2 : WithTop ℚ)) ∧
    (∀ v, (relaxStep u st e).dist v = st.dist v ∨
      (v = e.1 ∧ (relaxStep u st e).dist v = st.dist u + (e.2 : WithTop ℚ))) ∧
    (∀ v, (assocFind (relaxStep u st e).prev v).isSome ↔
      ((assocFind st.prev v).isSome ∨ (relaxStep u st e).dist v < st.dist v)) := by
  unfold relaxStep
  by_cases hrel : st.dist u + (e.2 : WithTop ℚ) < st.dist e.1
  · rw [if_pos hrel]
    have hne : u ≠ e.1 := by
      intro hequ
      rw [← hequ] at hrel
      have hmono : st.dist u ≤ st.dist u + (e.2 : WithTop ℚ) :=
        le_add_of_nonneg_right (coe_nonneg_top hw)
      exact absurd hrel (not_lt.mpr hmono)
    refine ⟨?_, ?_, ?_, ?_, ?_⟩
    · simp only
      rw [Function.update_noteq hne]
    · intro v
      by_cases hv : v = e.1
      · subst hv
        simp only
        rw [Function.update_same]
        exact le_of_lt hrel
      · simp only
        rw [Function.update_noteq hv]
    · simp only
      rw [Function.update_same]
    · intro v
      by_cases hv : v = e.1
      · refine Or.inr ⟨hv, ?_⟩
        subst hv
        simp only
        rw [Function.update_same]
      · refine Or.inl ?_
        simp only
        rw [Function.update_noteq hv]
    · intro v
      by_cases hv : v = e.1
      · subst hv
        simp only [assocFind, if_pos, Function.update_same]
        simp only [Option.isSome_some, true_iff]
        exact Or.inr hrel
      · simp only [assocFind]
        rw [if_neg (Ne.symm hv)]
        rw [Function.update_noteq hv]
        simp [lt_irrefl]
  · rw [if_neg hrel]
    refine ⟨rfl, fun v => le_refl _, not_lt.mp hrel, fun v => Or.inl rfl, ?_⟩
    intro v
    simp [lt_irrefl]

theorem lt_split3 {b1 b2 b3 : WithTop ℚ} (h12 : b1 ≤ b2) (h23 : b2 ≤ b3) :
    b1 < b3 ↔ (b2 < b3 ∨ b1 < b2) := by
  constructor
  · intro h
    by_cases h2 : b1 < b2
    · exact Or.inr h2
    · have hb : b2 ≤ b1 := not_lt.mp h2
      exact Or.inl (lt_of_le_of_lt hb h)
  · rintro (h | h)
    · exact lt_of_le_of_lt h12 h
    · exact lt_of_lt_of_le h h23

theorem relaxAll_spec (u : String) :
    ∀ (es : List (String × ℚ)) (st : DState), (∀ e ∈ es, 0 ≤ e.2) →
      (∀ v, (relaxAll u st es).dist v ≤ st.dist v) ∧
      ((relaxAll u st es).dist u = st.dist u) ∧
      (∀ e ∈ es, (relaxAll u st es).dist e.1 ≤ st.dist u + (e.2 : WithTop ℚ)) ∧
      (∀ v, (relaxAll u st es).dist v = st.dist v ∨
        ∃ w : ℚ, (v, w) ∈ es ∧
          (relaxAll u st es).dist v = st.dist u + (w : WithTop ℚ)) ∧
      (∀ v, (assocFind (relaxAll u st es).prev v).isSome ↔
        ((assocFind st.prev v).isSome ∨ (relaxAll u st es).dist v < st.dist v)) := by
  intro es
  induction es with
  | nil =>
      intro st hw
      refine ⟨fun v => le_refl _, rfl, by simp, fun v => Or.inl rfl, ?_⟩
      intro v
      simp [relaxAll, lt_irrefl]
  | cons e es ih =>
      intro st hw
      have hstep : relaxAll u st (e :: es) = relaxAll u (relaxStep u st e) es := rfl
      obtain ⟨s1, s2, s3, s4, s5⟩ := relaxStep_spec u st e (hw e (List.mem_cons_self e es))
      obtain ⟨i1, i2, i3, i4, i5⟩ :=
        ih (relaxStep u st e) fun x hx => hw x (List.mem_cons.mpr (Or.inr hx))
      rw [hstep]
      refine ⟨?_, ?_, ?_, ?_, ?_⟩
      · intro v
        exact le_trans (i1 v) (s2 v)
      · rw [i2, s1]
      · intro x hx
        rcases List.mem_cons.mp hx with hx | hx
        · subst hx
          exact le_trans (i1 x.1) s3
        · have hx3 := i3 x hx
          rw [s1] at hx3
          exact hx3
      · intro v
        rcases i4 v with h | ⟨w, hwmem, heq⟩
        · rcases s4 v with h2 | ⟨hv, h2⟩
          · exact Or.inl (h.trans h2)
          · refine Or.inr ⟨e.2, ?_, h.trans h2⟩
            subst hv
            have hpe : (e.1, e.2) = e := rfl
            rw [hpe]
            exact List.mem_cons_self e es
        · refine Or.inr ⟨w, List.mem_cons.mpr (Or.inr hwmem), ?_⟩
          rw [heq, s1]
      · intro v
        rw [i5 v, s5 v]
        have hsplit := lt_split3 (i1 v) (s2 v)
        constructor
        · rintro ((h | h) | h)
          · exact Or.inl h
          · exact Or.inr (hsplit.mpr (Or.inl h))
          · exact Or.inr (hsplit.mpr (Or.inr h))
        · rintro (h | h)
          · exact Or.inl (Or.inl h)
          · rcases hsplit.mp h with h | h
            · exact Or.inl (Or.inr h)
            · exact Or.inr h

/-! ## The loop invariant -/

/-- A vertex is settled when it is a key no longer in the working set. -/
def dsettled (g : Graph) (q : List String) (v : String) : Prop :=
  isKey g v ∧ v ∉ q

/-- The invariant of the Dijkstra loop, at working set `q`, for source `a`. -/
structure DInv (g : Graph) (a : String) (st : DState) (q : List String) : Prop where
  start_zero : st.dist a = 0
  dist_nonneg : ∀ v, 0 ≤ st.dist v
  settled_le : ∀ v, dsettled g q v → ∀ x ∈ q, st.dist v ≤ st.dist x
  settled_lb : ∀ v, dsettled g q v → ∀ c : ℚ, Walk g a v c →
    st.dist v ≤ (c : WithTop ℚ)
  frontier_lb : ∀ y (c : ℚ), WalkIn g (dsettled g q) a y c →
    st.dist y ≤ (c : WithTop ℚ)
  edge_relaxed : ∀ x, dsettled g q x → ∀ v w, symEdge g x v w →
    st.dist v ≤ st.dist x + (w : WithTop ℚ)
  reach_ub : ∀ v, st.dist v ≠ ⊤ → ∃ c : ℚ, Walk g a v c ∧
    (c : WithTop ℚ) ≤ st.dist v
  prev_iff : ∀ v, v ≠ a → ((assocFind st.prev v).isSome ↔ st.dist v ≠ ⊤)

/-- The node the scan extracts satisfies the settled lower bound: no walk
from the source is cheaper than its tentative distance. -/
theorem min_settled_lb {g : Graph} (hcl : adjClosed g) (hnn : nonnegWeights g)
    {a : String} {st : DState} {q : List String} (inv : DInv g a st q)
    {u : String} (hu : u ∈ q) (humin : ∀ x ∈ q, st.dist u ≤ st.dist x) :
    ∀ c : ℚ, Walk g a u c → st.dist u ≤ (c : WithTop ℚ) := by
  intro c hw
  rcases walk_frontier hcl hnn (dsettled g q) hw with p | ⟨z, c₁, hz, hzk, p, hle⟩
  · exact inv.frontier_lb u c p
  · have hzq : z ∈ q := by
      by_contra hzq
      exact hz ⟨hzk, hzq⟩
    calc st.dist u ≤ st.dist z := humin z hzq
      _ ≤ (c₁ : WithTop ℚ) := inv.frontier_lb z c₁ p
      _ ≤ (c : WithTop ℚ) := by exact_mod_cast hle

theorem DInv_step (g : Graph) (hnd : adjNodup g) (hcl : adjClosed g)
    (hnn : nonnegWeights g) (a : String) {st : DState} {q : List String}
    (hqk : ∀ x ∈ q, isKey g x) (hqnd : q.Nodup) (inv : DInv g a st q)
    {u : String} (hu : u ∈ q) (hutop : st.dist u < ⊤)
    (humin : ∀ x ∈ q, st.dist u ≤ st.dist x) :
    DInv g a (relaxAll u st (neighborsOf g u)) (q.erase u) := by
  have hwn : ∀ e ∈ neighborsOf g u, 0 ≤ e.2 := by
    intro e he
    have hpe : (e.1, e.2) = e := rfl
    have hse : symEdge g u e.1 e.2 := (mem_neighborsOf_iff hnd).mp (by rw [hpe]; exact he)
    exact symEdge_nonneg hnn hse
  obtain ⟨r1, r2, r3, r4, r5⟩ := relaxAll_spec u (neighborsOf g u) st hwn
  have hsettled_iff : ∀ v, dsettled g (q.erase u) v ↔ (dsettled g q v ∨ v = u) := by
    intro v
    unfold dsettled
    constructor
    · rintro ⟨hk, hnm⟩
      by_cases hvu : v = u
      · exact Or.inr hvu
      · refine Or.inl ⟨hk, ?_⟩
        intro hvq
        exact hnm ((List.mem_erase_of_ne hvu).mpr hvq)
    · rintro (⟨hk, hnm⟩ | hvu)
      · exact ⟨hk, fun hmem => hnm (List.mem_of_mem_erase hmem)⟩
      · subst hvu
        exact ⟨hqk v hu, hqnd.not_mem_erase⟩
  have hnng : ∀ v, 0 ≤ (relaxAll u st (neighborsOf g u)).dist v := by
    intro v
    rcases r4 v with h | ⟨w, hwmem, h⟩
    · rw [h]
      exact inv.dist_nonneg v
    · rw [h]
      exact add_nonneg (inv.dist_nonneg u) (coe_nonneg_top (hwn _ hwmem))
  have hunch : ∀ v, dsettled g q v →
      (relaxAll u st (neighborsOf g u)).dist v = st.dist v := by
    intro v hv
    refine le_antisymm (r1 v) ?_
    rcases r4 v with h | ⟨w, hwmem, h⟩
    · rw [h]
    · rw [h]
      exact le_trans (inv.settled_le v hv u hu)
        (le_add_of_nonneg_right (coe_nonneg_top (hwn _ hwmem)))
  have hlb_u : ∀ c : ℚ, Walk g a u c → st.dist u ≤ (c : WithTop ℚ) :=
    min_settled_lb hcl hnn inv hu humin
  have hstart : (relaxAll u st (neighborsOf g u)).dist a = 0 :=
    le_antisymm (inv.start_zero ▸ r1 a) (hnng a)
  have hsle : ∀ v, dsettled g (q.erase u) v → ∀ x ∈ q.erase u,
      (relaxAll u st (neighborsOf g u)).dist v ≤
        (relaxAll u st (neighborsOf g u)).dist x := by
    intro v hv x hx
    have hxq : x ∈ q := List.mem_of_mem_erase hx
    have hvlow : (relaxAll u st (neighborsOf g u)).dist v ≤ st.dist u := by
      rcases (hsettled_iff v).mp hv with hvold | hvu
      · rw [hunch v hvold]
        exact inv.settled_le v hvold u hu
      · subst hvu
        rw [r2]
    rcases r4 x with h | ⟨w, hwmem, h⟩
    · rw [h]
      exact le_trans hvlow (humin x hxq)
    · rw [h]
      exact le_trans hvlow (le_add_of_nonneg_right (coe_nonneg_top (hwn _ hwmem)))
  have hslb : ∀ v, dsettled g (q.erase u) v → ∀ c : ℚ, Walk g a v c →
      (relaxAll u st (neighborsOf g u)).dist v ≤ (c : WithTop ℚ) := by
    intro v hv c hw
    rcases (hsettled_iff v).mp hv with hvold | hvu
    · rw [hunch v hvold]
      exact inv.settled_lb v hvold c hw
    · subst hvu
      rw [r2]
      exact hlb_u c hw
  have hflb : ∀ y (c : ℚ), WalkIn g (dsettled g (q.erase u)) a y c →
      (relaxAll u st (neighborsOf g u)).dist y ≤ (c : WithTop ℚ) := by
    intro y c p
    rcases p.snoc_elim hcl with ⟨hay, hc⟩ | ⟨x, w, c₁, p1, hx, he, hc⟩
    · subst hay
      subst hc
      rw [hstart]
      rw [← WithTop.coe_zero]
    · have hxc : (relaxAll u st (neighborsOf g u)).dist x ≤ (c₁ : WithTop ℚ) :=
        hslb x hx c₁ p1.toWalk
      have hstep : (relaxAll u st (neighborsOf g u)).dist y ≤
          (relaxAll u st (neighborsOf g u)).dist x + (w : WithTop ℚ) := by
        rcases (hsettled_iff x).mp hx with hxold | hxu
        · rw [hunch x hxold]
          exact le_trans (r1 y) (inv.edge_relaxed x hxold y w he)
        · subst hxu
          rw [r2]
          exact r3 (y, w) ((mem_neighborsOf_iff hnd).mpr he)
      calc (relaxAll u st (neighborsOf g u)).dist y
          ≤ (relaxAll u st (neighborsOf g u)).dist x + (w : WithTop ℚ) := hstep
        _ ≤ (c₁ : WithTop ℚ) + (w : WithTop ℚ) := add_le_add_right hxc _
        _ = ((c₁ + w : ℚ) : WithTop ℚ) := by rw [WithTop.coe_add]
        _ = (c : WithTop ℚ) := by rw [hc]
  have herx : ∀ x, dsettled g (q.erase u) x → ∀ v w, symEdge g x v w →
      (relaxAll u st (neighborsOf g u)).dist v ≤
        (relaxAll u st (neighborsOf g u)).dist x + (w : WithTop ℚ) := by
    intro x hx v w he
    rcases (hsettled_iff x).mp hx with hxold | hxu
    · rw [hunch x hxold]
      exact le_trans (r1 v) (inv.edge_relaxed x hxold v w he)
    · subst hxu
      rw [r2]
      exact r3 (v, w) ((mem_neighborsOf_iff hnd).mpr he)
  have hrub : ∀ v, (relaxAll u st (neighborsOf g u)).dist v ≠ ⊤ →
      ∃ c : ℚ, Walk g a v c ∧
        (c : WithTop ℚ) ≤ (relaxAll u st (neighborsOf g u)).dist v := by
    intro v hne
    rcases r4 v with h | ⟨w, hwmem, h⟩
    · rw [h] at hne ⊢
      exact inv.reach_ub v hne
    · obtain ⟨c₀, hw0, hle0⟩ := inv.reach_ub u hutop.ne
      have hse : symEdge g u v w := (mem_neighborsOf_iff hnd).mp hwmem
      refine ⟨c₀ + w, Walk.snoc hcl hw0 hse, ?_⟩
      rw [h, WithTop.coe_add]
      exact add_le_add_right hle0 _
  have hpif : ∀ v, v ≠ a →
      ((assocFind (relaxAll u st (neighborsOf g u)).prev v).isSome ↔
        (relaxAll u st (neighborsOf g u)).dist v ≠ ⊤) := by
    intro v hva
    rw [r5 v, inv.prev_iff v hva]
    constructor
    · rintro (hne | hlt)
      · intro htop
        have hle := r1 v
        rw [htop] at hle
        exact hne (top_le_iff.mp hle)
      · exact (lt_of_lt_of_le hlt le_top).ne
    · intro hne
      rcases lt_or_eq_of_le (r1 v) with hlt | heq
      · exact Or.inr hlt
      · rw [← heq]
        exact Or.inl hne
  exact ⟨hstart, hnng, hsle, hslb, hflb, herx, hrub, hpif⟩

/-! ## The loop postcondition -/

/-- What the final loop state guarantees: the tentative distance of the
target is a lower bound on every walk cost from the source, every finite
distance is witnessed by a walk, and the predecessor map marks exactly the
vertices with finite distance. -/
def dPost (g : Graph) (a endId : String) (st : DState) : Prop :=
  st.dist a = 0 ∧
  (∀ c : ℚ, Walk g a endId c → st.dist endId ≤ (c : WithTop ℚ)) ∧
  (∀ v, st.dist v ≠ ⊤ → ∃ c : ℚ, Walk g a v c ∧ (c : WithTop ℚ) ≤ st.dist v) ∧
  (∀ v, v ≠ a → ((assocFind st.prev v).isSome ↔ st.dist v ≠ ⊤))

theorem dLoop_post (g : Graph) (hnd : adjNodup g) (hcl : adjClosed g)
    (hnn : nonnegWeights g) (a endId : String) (hend : isKey g endId) :
    ∀ (fuel : ℕ) (q : List String) (st : DState),
      q.length ≤ fuel → q.Nodup → (∀ x ∈ q, isKey g x) → DInv g a st q →
      dPost g a endId (dLoop g endId fuel st q) := by
  intro fuel
  induction fuel with
  | zero =>
      intro q st hlen hqnd hqk inv
      have hq : q = [] := List.length_eq_zero.mp (Nat.le_zero.mp hlen)
      subst hq
      simp only [dLoop]
      refine ⟨inv.start_zero, ?_, inv.reach_ub, inv.prev_iff⟩
      intro c hw
      exact inv.settled_lb endId ⟨hend, List.not_mem_nil endId⟩ c hw
  | succ fuel ih =>
      intro q st hlen hqnd hqk inv
      cases hscan : scanMin st.dist q none ⊤ with
      | none =>
          simp only [dLoop, hscan]
          refine ⟨inv.start_zero, ?_, inv.reach_ub, inv.prev_iff⟩
          intro c hw
          rcases walk_frontier hcl hnn (dsettled g q) hw with p |
            ⟨z, c₁, hz, hzk, p, hle⟩
          · exact inv.frontier_lb endId c p
          · have hzq : z ∈ q := by
              by_contra hzq
              exact hz ⟨hzk, hzq⟩
            have hztop : st.dist z = ⊤ := scanMin_eq_none hscan z hzq
            have hlez := inv.frontier_lb z c₁ p
            rw [hztop] at hlez
            exact absurd (lt_of_le_of_lt hlez (WithTop.coe_lt_top c₁))
              (lt_irrefl ⊤)
      | some u =>
          obtain ⟨huq, hutop, humin⟩ := scanMin_eq_some hscan
          by_cases hue : u = endId
          · simp only [dLoop, hscan, if_pos hue]
            subst hue
            refine ⟨inv.start_zero, ?_, inv.reach_ub, inv.prev_iff⟩
            exact min_settled_lb hcl hnn inv huq humin
          · simp only [dLoop, hscan, if_neg hue]
            refine ih (q.erase u) _ ?_ (hqnd.erase u) ?_ ?_
            · have herase := List.length_erase_of_mem huq
              omega
            · intro x hx
              exact hqk x (List.mem_of_mem_erase hx)
            · exact DInv_step g hnd hcl hnn a hqk hqnd inv huq hutop humin

/-- The specification of `shortestPath` on well-formed graphs: a null result
means no walk connects the endpoints, and a returned cost is exactly the
least walk cost. -/
theorem shortestPath_spec (g : Graph) (hnd : adjNodup g) (hcl : adjClosed g)
    (hnn : nonnegWeights g) (a b : String) (ha : isKey g a) (hb : isKey g b) :
    (g.shortestPath a b = none → ∀ c : ℚ, ¬ Walk g a b c) ∧
    (∀ p (cost : WithTop ℚ), g.shortestPath a b = some (p, cost) →
      (∃ c : ℚ, Walk g a b c ∧ (c : WithTop ℚ) ≤ cost) ∧
        (∀ c : ℚ, Walk g a b c → cost ≤ (c : WithTop ℚ))) := by
  have hasome : (assocFind g.adjacency a).isSome :=
    (assocFind_isSome_iff g.adjacency a).mpr ha
  have hbsome : (assocFind g.adjacency b).isSome :=
    (assocFind_isSome_iff g.adjacency b).mpr hb
  have hinv : DInv g a
      { dist := fun v => if v = a then ((0 : ℚ) : WithTop ℚ) else ⊤, prev := [] }
      g.adjKeys := by
    refine ⟨?_, ?_, ?_, ?_, ?_, ?_, ?_, ?_⟩
    · simp
    · intro v
      by_cases hv : v = a <;> simp [hv]
    · intro v hv x hx
      exact absurd hv.1 hv.2
    · intro v hv c hw
      exact absurd hv.1 hv.2
    · intro y c p
      cases p with
      | nil v hv =>
          simp
      | cons hu he p =>
          exact absurd hu.1 hu.2
    · intro x hx v w he
      exact absurd hx.1 hx.2
    · intro v hv
      by_cases hva : v = a
      · subst hva
        refine ⟨0, WalkIn.nil v ha, ?_⟩
        simp
      · simp only [if_neg hva] at hv
        exact absurd rfl hv
    · intro v hva
      simp [assocFind, if_neg hva]
  have hpost := dLoop_post g hnd hcl hnn a b hb g.adjKeys.length g.adjKeys
    _ (le_refl _) (by exact hnd) (fun x hx => hx) hinv
  obtain ⟨hp0, hp1, hp2, hp3⟩ := hpost
  unfold Graph.shortestPath
  rw [if_pos ⟨hasome, hbsome⟩]
  by_cases hab : a = b
  · subst hab
    rw [if_neg (by simp)]
    constructor
    · intro hnone
      cases hnone
    · intro p cost heq
      injection heq with heq
      injection heq with heq1 heq2
      subst heq2
      constructor
      · refine ⟨0, WalkIn.nil a ha, ?_⟩
        rw [hp0]
        simp
      · intro c hw
        rw [hp0]
        have := WalkIn.cost_nonneg hnn hw
        exact_mod_cast this
  · by_cases hprev : (assocFind (dLoop g b g.adjKeys.length
        { dist := fun v => if v = a then ((0 : ℚ) : WithTop ℚ) else ⊤,
          prev := [] } g.adjKeys).prev b).isNone
    · rw [if_pos ⟨hprev, hab⟩]
      constructor
      · intro hdummy c hw
        have hbtop : (dLoop g b g.adjKeys.length
            { dist := fun v => if v = a then ((0 : ℚ) : WithTop ℚ) else ⊤,
              prev := [] } g.adjKeys).dist b = ⊤ := by
          by_contra hne
          have := (hp3 b (Ne.symm hab)).mpr hne
          rw [Option.isNone_iff_eq_none] at hprev
          rw [hprev] at this
          cases this
        have hleb := hp1 c hw
        rw [hbtop] at hleb
        exact absurd (lt_of_le_of_lt hleb (WithTop.coe_lt_top c)) (lt_irrefl ⊤)
      · intro p cost heq
        cases heq
    · rw [if_neg (by
        intro hcontra
        exact hprev hcontra.1)]
      constructor
      · intro hnone
        cases hnone
      · intro p cost heq
        injection heq with heq
        injection heq with heq1 heq2
        subst heq2
        have hbne : (dLoop g b g.adjKeys.length
            { dist := fun v => if v = a then ((0 : ℚ) : WithTop ℚ) else ⊤,
              prev := [] } g.adjKeys).dist b ≠ ⊤ := by
          apply (hp3 b (Ne.symm hab)).mp
          rw [Bool.not_eq_true] at hprev
          cases hfind : assocFind (dLoop g b g.adjKeys.length
              { dist := fun v => if v = a then ((0 : ℚ) : WithTop ℚ) else ⊤,
                prev := [] } g.adjKeys).prev b with
          | none =>
              rw [hfind] at hprev
              cases hprev
          | some x => rfl
        exact ⟨hp2 b hbne, hp1⟩

/-! ## fromJSON builds well-formed graphs -/

theorem mem_assocEnsure_elim {α : Type} {l : List (String × α)} {k : String}
    {d : α} {kl : String × α} (h : kl ∈ assocEnsure l k d) :
    kl ∈ l ∨ kl = (k, d) := by
  unfold assocEnsure at h
  cases hfind : assocFind l k with
  | some v =>
      rw [hfind] at h
      exact Or.inl h
  | none =>
      rw [hfind] at h
      rcases List.mem_append.mp h with h | h
      · exact Or.inl h
      · exact Or.inr (List.mem_singleton.mp h)

theorem mem_assocAppendAt_elim {α : Type} :
    ∀ {l : List (String × List α)} {k : String} {x : α} {kl : String × List α},
      kl ∈ assocAppendAt l k x →
      kl ∈ l ∨ ∃ xs, (kl.1, xs) ∈ l ∧ kl.2 = xs ++ [x] := by
  intro l
  induction l with
  | nil =>
      intro k x kl h
      simp [assocAppendAt] at h
  | cons hd tl ih =>
      intro k x kl h
      obtain ⟨k0, xs0⟩ := hd
      simp only [assocAppendAt] at h
      by_cases hk : k0 = k
      · rw [if_pos hk] at h
        rcases List.mem_cons.mp h with h | h
        · subst h
          exact Or.inr ⟨xs0, List.mem_cons.mpr (Or.inl rfl), rfl⟩
        · exact Or.inl (List.mem_cons.mpr (Or.inr h))
      · rw [if_neg hk] at h
        rcases List.mem_cons.mp h with h | h
        · exact Or.inl (List.mem_cons.mpr (Or.inl h))
        · rcases ih h with h | ⟨xs, hxs, hkl⟩
          · exact Or.inl (List.mem_cons.mpr (Or.inr h))
          · exact Or.inr ⟨xs, List.mem_cons.mpr (Or.inr hxs), hkl⟩

theorem assocSet_keys_nodup {α : Type} {l : List (String × α)}
    (h : (l.map Prod.fst).Nodup) (k : String) (v : α) :
    ((assocSet l k v).map Prod.fst).Nodup := by
  rw [assocSet_keys]
  split
  · exact h
  · next hmem =>
      rw [List.nodup_append]
      exact ⟨h, List.nodup_singleton k, by simpa using hmem⟩

theorem assocEnsure_keys_nodup {α : Type} {l : List (String × α)}
    (h : (l.map Prod.fst).Nodup) (k : String) (d : α) :
    ((assocEnsure l k d).map Prod.fst).Nodup := by
  rw [assocEnsure_keys]
  split
  · exact h
  · next hmem =>
      rw [List.nodup_append]
      refine ⟨h, List.nodup_singleton k, ?_⟩
      have : k ∉ l.map Prod.fst := by
        intro hk
        exact hmem ((assocFind_isSome_iff l k).mpr hk)
      simpa using this

/-- The well-formedness `shortestPath`'s specification needs, true of every
graph `fromJSON` builds. -/
def GoodGraph (g : Graph) : Prop := adjNodup g ∧ adjClosed g ∧ nonnegWeights g

theorem Graph.addNode_good {g g' : Graph} {n : Node} (h : g.addNode n = some g')
    (hg : GoodGraph g) : GoodGraph g' := by
  obtain ⟨hnd, hcl, hnn⟩ := hg
  have hadj : g'.adjacency = assocEnsure g.adjacency n.id [] := by
    unfold Graph.addNode at h
    by_cases hid : n.id = ""
    · simp [hid] at h
    · simp only [hid, if_false, Option.some.injEq] at h
      subst h
      rfl
  have hkeys : ∀ v, isKey g v → isKey g' v := by
    intro v hv
    unfold isKey Graph.adjKeys at hv ⊢
    rw [hadj]
    exact mem_assocEnsure_keys _ _ hv
  refine ⟨?_, ?_, ?_⟩
  · unfold adjNodup Graph.adjKeys
    rw [hadj]
    exact assocEnsure_keys_nodup hnd n.id []
  · intro kl hkl e he
    rw [hadj] at hkl
    rcases mem_assocEnsure_elim hkl with hkl | hkl
    · exact hkeys e.1 (hcl kl hkl e he)
    · subst hkl
      simp at he
  · intro kl hkl e he
    rw [hadj] at hkl
    rcases mem_assocEnsure_elim hkl with hkl | hkl
    · exact hnn kl hkl e he
    · subst hkl
      simp at he

theorem Graph.addEdge_isKey_mono (g : Graph) (a b : String) (t : ℚ)
    {v : String} (hv : isKey g v) : isKey (g.addEdge a b t) v := by
  unfold isKey Graph.adjKeys at hv ⊢
  unfold Graph.addEdge
  simp only
  apply mem_assocEnsure_keys
  rw [assocAppendAt_keys]
  exact mem_assocEnsure_keys _ _ hv

theorem Graph.addEdge_isKey_to (g : Graph) (a b : String) (t : ℚ) :
    isKey (g.addEdge a b t) b := by
  unfold isKey Graph.adjKeys Graph.addEdge
  simp only
  exact self_mem_assocEnsure_keys _ _ _

theorem Graph.addEdge_good (g : Graph) (a b : String) (t : ℚ) (ht : 0 ≤ t)
    (hg : GoodGraph g) : GoodGraph (g.addEdge a b t) := by
  obtain ⟨hnd, hcl, hnn⟩ := hg
  have hmem2 : ∀ {kl : String × List (String × ℚ)},
      kl ∈ (g.addEdge a b t).adjacency →
      (∀ e ∈ kl.2, isKey g e.1 ∧ 0 ≤ e.2 ∨ e = (b, t)) := by
    intro kl hkl e he
    unfold Graph.addEdge at hkl
    simp only at hkl
    rcases mem_assocEnsure_elim hkl with hkl | hkl
    · rcases mem_assocAppendAt_elim hkl with hkl | ⟨xs, hxs, hkl2⟩
      · rcases mem_assocEnsure_elim hkl with hkl | hkl
        · exact Or.inl ⟨hcl kl hkl e he, hnn kl hkl e he⟩
        · rw [hkl] at he
          simp at he
      · rw [hkl2] at he
        rcases List.mem_append.mp he with he | he
        · rcases mem_assocEnsure_elim hxs with hxs | hxs
          · exact Or.inl ⟨hcl _ hxs e he, hnn _ hxs e he⟩
          · injection hxs with h1 h2
            rw [h2] at he
            simp at he
        · exact Or.inr (List.mem_singleton.mp he)
    · rw [hkl] at he
      simp at he
  refine ⟨?_, ?_, ?_⟩
  · unfold adjNodup Graph.adjKeys Graph.addEdge
    simp only
    apply assocEnsure_keys_nodup
    rw [assocAppendAt_keys]
    exact assocEnsure_keys_nodup hnd a []
  · intro kl hkl e he
    rcases hmem2 hkl e he with ⟨hk, hw0⟩ | he2
    · exact Graph.addEdge_isKey_mono g a b t hk
    · rw [he2]
      exact Graph.addEdge_isKey_to g a b t
  · intro kl hkl e he
    rcases hmem2 hkl e he with ⟨hk, hw0⟩ | he2
    · exact hw0
    · rw [he2]
      exact ht

theorem Graph.ensurePlaceholder_good {g g' : Graph} {id : String}
    (h : g.ensurePlaceholder id = some g') (hg : GoodGraph g) : GoodGraph g' := by
  unfold Graph.ensurePlaceholder at h
  cases hfind : g.getNode id with
  | some n =>
      rw [hfind] at h
      cases h
      exact hg
  | none =>
      rw [hfind] at h
      exact Graph.addNode_good h hg

theorem addNodesFromArray_good :
    ∀ (ns : List RawNode) (g g' : Graph), addNodesFromArray g ns = some g' →
      GoodGraph g → GoodGraph g' := by
  intro ns
  induction ns with
  | nil =>
      intro g g' h hg
      simp only [addNodesFromArray, Option.some.injEq] at h
      subst h
      exact hg
  | cons n rest ih =>
      intro g g' h hg
      simp only [addNodesFromArray] at h
      by_cases hid : n.id = ""
      · rw [if_pos hid] at h
        exact ih _ _ h hg
      · rw [if_neg hid] at h
        rw [Option.bind_eq_some] at h
        obtain ⟨g1, h1, h⟩ := h
        exact ih _ _ h (Graph.addNode_good h1 hg)

theorem addEdgesFromJSON_good :
    ∀ (edges : List JEdge) (g g' : Graph), addEdgesFromJSON g edges = some g' →
      (∀ e ∈ edges, 0 ≤ e.travel_time_minutes) → GoodGraph g → GoodGraph g' := by
  intro edges
  induction edges with
  | nil =>
      intro g g' h hw hg
      simp only [addEdgesFromJSON, Option.some.injEq] at h
      subst h
      exact hg
  | cons e rest ih =>
      intro g g' h hw hg
      simp only [addEdgesFromJSON, Option.bind_eq_some] at h
      obtain ⟨g1, h1, g2, h2, h⟩ := h
      refine ih _ _ h (fun x hx => hw x (List.mem_cons.mpr (Or.inr hx))) ?_
      exact Graph.addEdge_good g2 e.fromId e.toId e.travel_time_minutes
        (hw e (List.mem_cons_self e rest))
        (Graph.ensurePlaceholder_good h2 (Graph.ensurePlaceholder_good h1 hg))

theorem fromJSON_good {jsonEdges : List JEdge} {nodesArray : List RawNode}
    {g : Graph} (hg : Graph.fromJSON jsonEdges nodesArray = some g)
    (hw : ∀ e ∈ jsonEdges, 0 ≤ e.travel_time_minutes) : GoodGraph g := by
  unfold Graph.fromJSON at hg
  rw [Option.bind_eq_some] at hg
  obtain ⟨g0, h0, hg⟩ := hg
  refine addEdgesFromJSON_good jsonEdges g0 g hg hw ?_
  refine addNodesFromArray_good nodesArray Graph.empty g0 h0 ?_
  refine ⟨List.nodup_nil, ?_, ?_⟩
  · intro kl hkl
    simp [Graph.empty] at hkl
  · intro kl hkl
    simp [Graph.empty] at hkl

/-- C8 amended: `shortestPath` treats every directed edge as traversable in
both directions at the same travel_time_minutes weight; consequently, for
every graph built by `Graph.fromJSON` from edges whose travel times are all
non-negative, and every pair of node ids present in the adjacency map, the
two directed runs are either both null or return paths of equal cost. -/
theorem shortestPath_cost_symmetric (jsonEdges : List JEdge)
    (nodesArray : List RawNode) (g : Graph)
    (hg : Graph.fromJSON jsonEdges nodesArray = some g)
    (hw : ∀ e ∈ jsonEdges, 0 ≤ e.travel_time_minutes)
    (a b : String) (ha : isKey g a) (hb : isKey g b) :
    costSym (g.shortestPath a b) (g.shortestPath b a) := by
  obtain ⟨hnd, hcl, hnn⟩ := fromJSON_good hg hw
  obtain ⟨hn1, hs1⟩ := shortestPath_spec g hnd hcl hnn a b ha hb
  obtain ⟨hn2, hs2⟩ := shortestPath_spec g hnd hcl hnn b a hb ha
  cases h1 : g.shortestPath a b with
  | none =>
      cases h2 : g.shortestPath b a with
      | none => trivial
      | some pc =>
          obtain ⟨p2, c2⟩ := pc
          obtain ⟨⟨c, hwk, hle⟩, hmin⟩ := hs2 p2 c2 h2
          exact absurd (Walk.reverse hcl hwk) (hn1 h1 c)
  | some pc1 =>
      obtain ⟨p1, c1⟩ := pc1
      cases h2 : g.shortestPath b a with
      | none =>
          obtain ⟨⟨c, hwk, hle⟩, hmin⟩ := hs1 p1 c1 h1
          exact absurd (Walk.reverse hcl hwk) (hn2 h2 c)
      | some pc2 =>
          obtain ⟨p2, c2⟩ := pc2
          obtain ⟨⟨ca, hwa, hlea⟩, hmina⟩ := hs1 p1 c1 h1
          obtain ⟨⟨cb, hwb, hleb⟩, hminb⟩ := hs2 p2 c2 h2
          show c1 = c2
          exact le_antisymm (le_trans (hmina cb (Walk.reverse hcl hwb)) hleb)
            (le_trans (hminb ca (Walk.reverse hcl hwa)) hlea)

/-- The same shape as the C8 counterexample but with a positive third
weight: all travel times non-negative. -/
def symDemoE : List JEdge := [⟨"s", "t", 5⟩, ⟨"s", "a", 10⟩, ⟨"a", "t", 100⟩]

/-- The graph `Graph.fromJSON symDemoE []` builds. -/
def symDemoG : Graph :=
  { nodes := [("s", ⟨"s", .plain⟩), ("t", ⟨"t", .plain⟩), ("a", ⟨"a", .plain⟩)]
    adjacency := [("s", [("t", 5), ("a", 10)]), ("t", []), ("a", [("t", 100)])] }

theorem shortestPath_cost_symmetric_witness :
    Graph.fromJSON symDemoE [] = some symDemoG ∧
      (∀ e ∈ symDemoE, 0 ≤ e.travel_time_minutes) ∧
      isKey symDemoG "s" ∧ isKey symDemoG "t" ∧
      costSym (symDemoG.shortestPath "s" "t") (symDemoG.shortestPath "t" "s") :=
  ⟨rfl,
    by
      intro e he
      simp only [symDemoE, List.mem_cons, List.mem_singleton, List.not_mem_nil,
        or_false] at he
      rcases he with rfl | rfl | rfl <;> norm_num,
    by decide, by decide,
    shortestPath_cost_symmetric symDemoE [] symDemoG rfl
      (by
        intro e he
        simp only [symDemoE, List.mem_cons, List.mem_singleton, List.not_mem_nil,
          or_false] at he
        rcases he with rfl | rfl | rfl <;> norm_num)
      "s" "t" (by decide) (by decide)⟩

end Aethernet
